import Mathlib

/-!
Verification development for the Data Matrix high-level encoder
(`src/core/src/datamatrix/DMHighLevelEncoder.cpp`).

Modelling conventions:
* Message octets, codewords and buffer values are `Nat` (the spec's data
  model: octets 0..255 after ISO-8859-1 transcoding).  `char`/`int`
  arithmetic of the C++ is carried out on these octet values; the signed
  `char` detours of the source (e.g. `c >= '\x80'` on a signed `char`)
  coincide with the octet reading for inputs 0..255, which is all the
  transcoder can produce.
* The `float` accumulators of `LookAheadTest` are modelled by exact
  fractions.  Every increment of the source (1/2, 1, 5/4, 2/3, 8/3, 4/3,
  13/3, 10/3, 3/4, 17/4, 13/4, 2) is a multiple of 1/12, so a count is
  stored as the natural number `12 * value`.  `std::ceil` becomes
  "round the scaled value up to the next multiple of 12".
* `EncoderContext` (`DMEncoderContext.h`) is not part of the sources given
  under `src/`.  Modelled from the spec: the context carries the message,
  the cursor, the emitted codewords, the pending `newEncoding` and
  `skipAtEnd`; `updateSymbolInfo(n)` asks the (external) symbol-info
  catalog for the smallest fitting capacity, and since the spec says the
  symbol info "is always recomputed" where it matters, the model simply
  recomputes `cap n` on every call (`resetSymbolInfo` is then a no-op and
  the context needs no symbolInfo field).  The catalog itself is a
  parameter `cap : Nat → Nat`; the spec constrains it by
  "returned capacity ≥ requested count" and "smallest fitting".
* C++ exceptions become `Except`.  Because the C++ context is passed by
  reference, a caller still sees the context mutations performed before a
  throw; errors therefore carry the context: `Except (Err × Ctx) Ctx`.
* C++ `while` loops whose termination is not structural are given explicit
  fuel large enough that exhaustion is unreachable for the executions the
  theorems talk about; the top-level driver loop reports fuel exhaustion
  as an (artificial) error so that no claim about successful encodes can
  be met by a fuel-truncated run.
-/

namespace DMHLE

/-- The six encodation modes, in the order of the C++ `ENCODATION` enum. -/
inductive Mode
  | ascii
  | c40
  | text
  | x12
  | edifact
  | base256
deriving DecidableEq, Repr

/-- Errors of the encoder, per the spec's taxonomy.  `outOfFuel` is an
artifact of modelling the driver loop with fuel; it never corresponds to a
successful C++ run. -/
inductive Err
  | illegalCharacter
  | messageTooLong
  | internalInvariant
  | outOfFuel
deriving DecidableEq, Repr

/-- `IsDigit` of the source. -/
def IsDigit (c : Nat) : Bool := 48 ≤ c && c ≤ 57

/-- `IsExtendedASCII` of the source. -/
def IsExtendedASCII (c : Nat) : Bool := 128 ≤ c && c ≤ 255

/-- `IsNativeC40` of the source: space, digit or upper-case letter. -/
def IsNativeC40 (c : Nat) : Bool :=
  c = 32 || (48 ≤ c && c ≤ 57) || (65 ≤ c && c ≤ 90)

/-- `IsNativeText` of the source: space, digit or lower-case letter. -/
def IsNativeText (c : Nat) : Bool :=
  c = 32 || (48 ≤ c && c ≤ 57) || (97 ≤ c && c ≤ 122)

/-- `IsX12TermSep` of the source: CR, `*`, `>`. -/
def IsX12TermSep (c : Nat) : Bool := c = 13 || c = 42 || c = 62

/-- `IsNativeX12` of the source. -/
def IsNativeX12 (c : Nat) : Bool :=
  IsX12TermSep c || c = 32 || (48 ≤ c && c ≤ 57) || (65 ≤ c && c ≤ 90)

/-- `IsNativeEDIFACT` of the source: 0x20..0x5E. -/
def IsNativeEDIFACT (c : Nat) : Bool := 32 ≤ c && c ≤ 94

/-- `IsSpecialB256` of the source: "NOT IMPLEMENTED YET", always false. -/
def IsSpecialB256 (_c : Nat) : Bool := false

/-- The six fractional character-count accumulators of `LookAheadTest`,
scaled by 12 (field order: Ascii, C40, Text, X12, Edifact, Base256). -/
structure Counts where
  a : Nat
  c : Nat
  t : Nat
  x : Nat
  e : Nat
  b : Nat
deriving DecidableEq, Repr

/-- Round a scaled count up to the next whole character count
(`std::ceil` on the unscaled value), still scaled by 12. -/
def ceil12 (v : Nat) : Nat := 12 * ((v + 11) / 12)

/-- Unscale a count with `std::ceil`: the `intCharCounts` entry. -/
def icount (v : Nat) : Nat := (v + 11) / 12

/-- The ceiled integer counts (`intCharCounts` of the source). -/
structure ICounts where
  a : Nat
  c : Nat
  t : Nat
  x : Nat
  e : Nat
  b : Nat
deriving DecidableEq, Repr

/-- `std::transform` with `ceil` from `charCounts` to `intCharCounts`. -/
def Counts.toI (k : Counts) : ICounts :=
  ⟨icount k.a, icount k.c, icount k.t, icount k.x, icount k.e, icount k.b⟩

/-- The minimum of the six integer counts (the `min` that `FindMinimums`
computes). -/
def ICounts.min6 (ic : ICounts) : Nat :=
  min ic.a (min ic.c (min ic.t (min ic.x (min ic.e ic.b))))

/-- `std::accumulate` over the `mins` array of `FindMinimums`: how many
modes achieve the minimum. -/
def ICounts.minCount (ic : ICounts) : Nat :=
  (if ic.a = ic.min6 then 1 else 0) + (if ic.c = ic.min6 then 1 else 0) +
  (if ic.t = ic.min6 then 1 else 0) + (if ic.x = ic.min6 then 1 else 0) +
  (if ic.e = ic.min6 then 1 else 0) + (if ic.b = ic.min6 then 1 else 0)

/-- Double all counts (step J's `transform` with `x * 2`). -/
def Counts.double (k : Counts) : Counts :=
  ⟨2 * k.a, 2 * k.c, 2 * k.t, 2 * k.x, 2 * k.e, 2 * k.b⟩

/-- `charCounts[currentMode] = 0`. -/
def Counts.zeroAt (k : Counts) : Mode → Counts
  | .ascii => { k with a := 0 }
  | .c40 => { k with c := 0 }
  | .text => { k with t := 0 }
  | .x12 => { k with x := 0 }
  | .edifact => { k with e := 0 }
  | .base256 => { k with b := 0 }

/-- The initial accumulators of `LookAheadTest` (lines 151-156): literal
`{0.5, 1, 1, 1, 1, 1.25}` (scaled: `⟨6,12,12,12,12,15⟩`), doubled when
`currentMode ≠ Ascii`, and then — unconditionally, the assignment sits
outside the `if` — `charCounts[currentMode] = 0`. -/
def initCounts (currentMode : Mode) : Counts :=
  let k0 : Counts := ⟨6, 12, 12, 12, 12, 15⟩
  let k1 := if currentMode ≠ Mode.ascii then k0.double else k0
  k1.zeroAt currentMode

/-- Steps L-Q: the per-character accumulation (scaled increments:
0.5→6, 1→12, 2→24, 2/3→8, 8/3→32, 4/3→16, 13/3→52, 10/3→40, 3/4→9,
17/4→51, 13/4→39, 4→48, 1.25→15). -/
def stepChar (c : Nat) (k : Counts) : Counts :=
  let a := if IsDigit c then k.a + 6
           else if IsExtendedASCII c then ceil12 k.a + 24
           else ceil12 k.a + 12
  let c40 := k.c + (if IsNativeC40 c then 8 else if IsExtendedASCII c then 32 else 16)
  let t := k.t + (if IsNativeText c then 8 else if IsExtendedASCII c then 32 else 16)
  let x := k.x + (if IsNativeX12 c then 8 else if IsExtendedASCII c then 52 else 40)
  let e := k.e + (if IsNativeEDIFACT c then 9 else if IsExtendedASCII c then 51 else 39)
  let b := k.b + (if IsSpecialB256 c then 48 else 12)
  ⟨a, c40, t, x, e, b⟩

/-- Step K (message exhausted): pick the mode from the ceiled counts. -/
def stepK (k : Counts) : Mode :=
  let ic := k.toI
  let m := ic.min6
  if ic.a = m then .ascii
  else if ic.minCount = 1 ∧ ic.b = m then .base256
  else if ic.minCount = 1 ∧ ic.e = m then .edifact
  else if ic.minCount = 1 ∧ ic.t = m then .text
  else if ic.minCount = 1 ∧ ic.x = m then .x12
  else .c40

/-- The body of step R's C40/X12 tie-break scan over the characters from
the start index on: X12 on the first X12 terminator/separator, C40 on the
first non-native-X12 character or at the end of the message. -/
def x12ScanGo : List Nat → Mode
  | [] => .c40
  | tc :: rest =>
    if IsX12TermSep tc then .x12
    else if ¬ IsNativeX12 tc then .c40
    else x12ScanGo rest

/-- The forward scan of step R's C40/X12 tie-break
(`while (p < msg.length())` over `msg.at(p)`, lines 289-299), starting at
index `p`. -/
def x12ScanIdx (msg : List Nat) (p : Nat) : Mode := x12ScanGo (msg.drop p)

/-- Step R (run once `charsProcessed ≥ 4`): either settles on a mode
(`some`) or lets the loop continue (`none`).  `cp` is the value of
`charsProcessed` after the increment, so the tie-break scan starts at
`startpos + cp + 1`. -/
def stepR (msg : List Nat) (startpos cp : Nat) (k : Counts) : Option Mode :=
  let ic := k.toI
  let m := ic.min6
  if ic.a < ic.b ∧ ic.a < ic.c ∧ ic.a < ic.t ∧ ic.a < ic.x ∧ ic.a < ic.e then
    some .ascii
  else if ic.b < ic.a ∨
      ((if ic.c = m then 1 else 0) + (if ic.t = m then 1 else 0) +
       (if ic.x = m then 1 else 0) + (if ic.e = m then 1 else 0) = 0) then
    some .base256
  else if ic.minCount = 1 ∧ ic.e = m then some .edifact
  else if ic.minCount = 1 ∧ ic.t = m then some .text
  else if ic.minCount = 1 ∧ ic.x = m then some .x12
  else if ic.c + 1 < ic.a ∧ ic.c + 1 < ic.b ∧ ic.c + 1 < ic.e ∧ ic.c + 1 < ic.t then
    if ic.c < ic.x then some .c40
    else if ic.c = ic.x then some (x12ScanIdx msg (startpos + cp + 1))
    else none
  else none

/-- The `while (true)` loop of `LookAheadTest`.  `rest` is the unprocessed
suffix `msg.drop (startpos + cp)`; the loop's top-of-body exhaustion test
(`startpos + charsProcessed == msg.length()`, step K) is `rest = []`. -/
def lookAheadLoop (msg : List Nat) (startpos : Nat) :
    List Nat → Nat → Counts → Mode
  | [], _, k => stepK k
  | c :: rest, cp, k =>
    let k' := stepChar c k
    let cp' := cp + 1
    match (if 4 ≤ cp' then stepR msg startpos cp' k' else none) with
    | some m => m
    | none => lookAheadLoop msg startpos rest cp' k'

/-- `LookAheadTest` (lines 146-305). -/
def LookAheadTest (msg : List Nat) (startpos : Nat) (currentMode : Mode) : Mode :=
  if msg.length ≤ startpos then currentMode
  else lookAheadLoop msg startpos (msg.drop startpos) 0 (initCounts currentMode)

/-- Modelled from the spec: the encoder context (`DMEncoderContext.h` is
not under `src/`).  Spec §3: input octets, cursor position, emitted
codewords, pending mode-switch request, macro skip-at-end count.  The
symbol info is recomputed from the catalog on every `updateSymbolInfo`
(spec: "always recomputed"), so it is not stored. -/
structure Ctx where
  message : List Nat
  pos : Nat
  codewords : List Nat
  newEncoding : Option Mode
  skipAtEnd : Nat
deriving DecidableEq, Repr

/-- `totalMessageCharCount`: message length minus `skipAtEnd`
(as a C++ `int` difference). -/
def Ctx.total (ctx : Ctx) : Int := (ctx.message.length : Int) - ctx.skipAtEnd

/-- `hasMoreCharacters`. -/
def Ctx.hasMore (ctx : Ctx) : Bool := decide ((ctx.pos : Int) < ctx.total)

/-- `remainingCharacters` (an `int` in the source, so a `ℤ` here). -/
def Ctx.remaining (ctx : Ctx) : Int := ctx.total - ctx.pos

/-- `currentChar`: the octet under the cursor. -/
def Ctx.cur (ctx : Ctx) : Nat := ctx.message.getD ctx.pos 0

/-- `nextChar`. -/
def Ctx.next (ctx : Ctx) : Nat := ctx.message.getD (ctx.pos + 1) 0

/-- `addCodeword`. -/
def Ctx.add (ctx : Ctx) (cw : Nat) : Ctx :=
  { ctx with codewords := ctx.codewords ++ [cw] }

/-- `codewordCount`. -/
def Ctx.count (ctx : Ctx) : Nat := ctx.codewords.length

/-- `setNewEncoding`. -/
def Ctx.setNE (ctx : Ctx) (m : Mode) : Ctx := { ctx with newEncoding := some m }

/-- `setCurrentPos`. -/
def Ctx.setPos (ctx : Ctx) (p : Nat) : Ctx := { ctx with pos := p }

/-- `available = symbolInfo->dataCapacity() - n` after `updateSymbolInfo n`,
for catalog `cap` (an `int` difference in the source). -/
def avail (cap : Nat → Nat) (n : Nat) : Int := (cap n : Int) - n

/-- Modelled from the spec: the data capacities of the symbol-size
catalog for `shape = None` with no size constraints, in increasing order.
The spec fixes only the interface (capacity ≥ requested, smallest
fitting symbol, largest capacity ≈ 1558); the capacities themselves are
the ISO/IEC 16022 data capacities the spec refers to. -/
def capacities : List Nat :=
  [3, 5, 8, 10, 12, 16, 18, 22, 30, 32, 36, 44, 49, 62, 86, 114, 144, 174,
   204, 280, 368, 456, 576, 696, 816, 1050, 1304, 1558]

/-- Modelled from the spec: smallest-fitting capacity selection.
Totalised with `n` itself above 1558 (`NoFittingSymbol` is out of the
modelled scope) so that `n ≤ stdCap n` holds everywhere. -/
def stdCap (n : Nat) : Nat := (capacities.find? (fun c => n ≤ c)).getD n

/-- `Randomize253State` (lines 123-128). -/
def Randomize253State (ch pos : Nat) : Nat :=
  let pseudoRandom := (149 * pos) % 253 + 1
  let tempVariable := ch + pseudoRandom
  if tempVariable ≤ 254 then tempVariable else tempVariable - 254

/-- The `LATCHES` table (lines 57-64). -/
def latchOf : Mode → Nat
  | .ascii => 0
  | .c40 => 230
  | .text => 239
  | .x12 => 238
  | .edifact => 240
  | .base256 => 231

/-- `ASCIIEncoder::DetermineConsecutiveDigitCount` from the cursor: the
scan runs to the end of the raw message (it ignores `skipAtEnd`, as the
source does). -/
def digitCount : List Nat → Nat
  | [] => 0
  | c :: rest => if IsDigit c then digitCount rest + 1 else 0

/-- `ASCIIEncoder::EncodeASCIIDigits`. -/
def EncodeASCIIDigits (d1 d2 : Nat) : Nat :=
  if IsDigit d1 && IsDigit d2 then (d1 - 48) * 10 + (d2 - 48) + 130
  else 63

/-- `ASCIIEncoder::EncodeASCII` (lines 340-367). -/
def EncodeASCII (ctx : Ctx) : Ctx :=
  let n := digitCount (ctx.message.drop ctx.pos)
  if 2 ≤ n then
    (ctx.add (EncodeASCIIDigits ctx.cur ctx.next)).setPos (ctx.pos + 2)
  else
    let c := ctx.cur
    let newMode := LookAheadTest ctx.message ctx.pos .ascii
    if newMode ≠ .ascii then
      (ctx.add (latchOf newMode)).setNE newMode
    else if IsExtendedASCII c then
      (((ctx.add 235).add (c - 128 + 1))).setPos (ctx.pos + 1)
    else
      (ctx.add (c + 1)).setPos (ctx.pos + 1)

/-- `C40Encoder::EncodeChar` (lines 373-419): the C40 values appended for
one character (their number is the source's return value
`lastCharSize`).  The `c >= '\x80'` branch recurses on `c - 0x80`; the
recursion depth is bounded by 1 (the argument drops below 0x80), made
structural through the `depth` argument. -/
def c40EncodeCharGo : Nat → Nat → Except Err (List Nat)
  | 0, _ => .error .illegalCharacter
  | depth + 1, c =>
    if c = 32 then .ok [3]
    else if 48 ≤ c ∧ c ≤ 57 then .ok [c - 48 + 4]
    else if 65 ≤ c ∧ c ≤ 90 then .ok [c - 65 + 14]
    else if c ≤ 31 then .ok [0, c]
    else if 33 ≤ c ∧ c ≤ 47 then .ok [1, c - 33]
    else if 58 ≤ c ∧ c ≤ 64 then .ok [1, c - 58 + 15]
    else if 91 ≤ c ∧ c ≤ 95 then .ok [1, c - 91 + 22]
    else if 96 ≤ c ∧ c ≤ 127 then .ok [2, c - 96]
    else if 128 ≤ c then
      match c40EncodeCharGo depth (c - 128) with
      | .ok vs => .ok ([1, 30] ++ vs)
      | .error e => .error e
    else .error .illegalCharacter

/-- `C40Encoder::EncodeChar`: depth 2 covers every octet (one upper
shift reaches `c - 128 ≤ 127`, which never recurses again). -/
def c40EncodeChar (c : Nat) : Except Err (List Nat) := c40EncodeCharGo 2 c

/-- `DMTextEncoder::EncodeChar` (lines 542-598), same recursion scheme. -/
def textEncodeCharGo : Nat → Nat → Except Err (List Nat)
  | 0, _ => .error .illegalCharacter
  | depth + 1, c =>
    if c = 32 then .ok [3]
    else if 48 ≤ c ∧ c ≤ 57 then .ok [c - 48 + 4]
    else if 97 ≤ c ∧ c ≤ 122 then .ok [c - 97 + 14]
    else if c ≤ 31 then .ok [0, c]
    else if 33 ≤ c ∧ c ≤ 47 then .ok [1, c - 33]
    else if 58 ≤ c ∧ c ≤ 64 then .ok [1, c - 58 + 15]
    else if 91 ≤ c ∧ c ≤ 95 then .ok [1, c - 91 + 22]
    else if c = 96 then .ok [2, c - 96]
    else if 65 ≤ c ∧ c ≤ 90 then .ok [2, c - 65 + 1]
    else if 123 ≤ c ∧ c ≤ 127 then .ok [2, c - 123 + 27]
    else if 128 ≤ c then
      match textEncodeCharGo depth (c - 128) with
      | .ok vs => .ok ([1, 30] ++ vs)
      | .error e => .error e
    else .error .illegalCharacter

/-- `DMTextEncoder::EncodeChar`. -/
def textEncodeChar (c : Nat) : Except Err (List Nat) := textEncodeCharGo 2 c

/-- `C40Encoder::EncodeToCodewords` applied to the front of the buffer:
`v = 1600·c1 + 40·c2 + c3 + 1`, emit `v / 256` then `v % 256`. -/
def packC40 (c1 c2 c3 : Nat) : Nat := 1600 * c1 + 40 * c2 + c3 + 1

/-- `C40Encoder::WriteNextTriplet`: emit the two codewords of the first
triple and drop it from the buffer. -/
def writeNextTriplet (ctx : Ctx) (buffer : List Nat) : Ctx × List Nat :=
  let v := packC40 (buffer.getD 0 0) (buffer.getD 1 0) (buffer.getD 2 0)
  (((ctx.add (v / 256)).add (v % 256)), buffer.drop 3)

/-- The `while (buffer.length() >= 3) WriteNextTriplet(...)` flush loops of
`C40Encoder::HandleEOD`: a buffer of length ≥ 3 is `c1 :: c2 :: c3 :: rest`. -/
def c40FlushLoop : Ctx → List Nat → Ctx
  | ctx, c1 :: c2 :: c3 :: rest =>
    c40FlushLoop ((ctx.add (packC40 c1 c2 c3 / 256)).add (packC40 c1 c2 c3 % 256)) rest
  | ctx, _ => ctx

/-- Closed form of the flushed codewords: two codewords per full triple,
remainder ignored. -/
def triplesCW : List Nat → List Nat
  | c1 :: c2 :: c3 :: rest =>
    packC40 c1 c2 c3 / 256 :: packC40 c1 c2 c3 % 256 :: triplesCW rest
  | _ => []

/-- `C40Encoder::HandleEOD` (lines 453-493), for catalog `cap`.  On the
`rest == 1 && available != 1` branch the source throws `std::logic_error`
(the spec's `InternalInvariant`) with no prior context mutation. -/
def c40HandleEOD (cap : Nat → Nat) (ctx : Ctx) (buffer : List Nat) :
    Except (Err × Ctx) Ctx :=
  let unwritten := buffer.length / 3 * 2
  let rest := buffer.length % 3
  let curCodewordCount := ctx.count + unwritten
  let available := avail cap curCodewordCount
  if rest = 2 then
    let ctx1 := c40FlushLoop ctx (buffer ++ [0])
    let ctx2 := if ctx1.hasMore then ctx1.add 254 else ctx1
    .ok (ctx2.setNE .ascii)
  else if available = 1 ∧ rest = 1 then
    let ctx1 := c40FlushLoop ctx buffer
    let ctx2 := if ctx1.hasMore then ctx1.add 254 else ctx1
    .ok ((ctx2.setPos (ctx2.pos - 1)).setNE .ascii)
  else if rest = 0 then
    let ctx1 := c40FlushLoop ctx buffer
    let ctx2 := if 0 < available ∨ ctx1.hasMore then ctx1.add 254 else ctx1
    .ok (ctx2.setNE .ascii)
  else .error (.internalInvariant, ctx)

/-- `C40Encoder::BacktrackOneCharacter` (lines 421-430): drop the last
`lastCharSize` values, step the cursor back, and re-encode the character
under the cursor into the (discarded) `removed` buffer — only the new
`lastCharSize` survives.  `resetSymbolInfo` is a no-op in the
recompute-on-demand catalog model. -/
def backtrackOne (encodeChar : Nat → Except Err (List Nat)) (ctx : Ctx)
    (buffer : List Nat) (lastCharSize : Nat) :
    Except (Err × Ctx) (Ctx × List Nat × Nat) :=
  let buffer' := buffer.take (buffer.length - lastCharSize)
  let ctx' := ctx.setPos (ctx.pos - 1)
  match encodeChar ctx'.cur with
  | .ok vs => .ok (ctx', buffer', vs.length)
  | .error e => .error (e, ctx')

/-- The backtracking `while` of `EncodeC40` (line 516).  `available` is the
value captured before the loop; the source does not recompute it.  Fuel
bounds the iterations (each one shortens the buffer). -/
def c40BacktrackWhile (encodeChar : Nat → Except Err (List Nat))
    (available : Int) :
    Nat → Ctx → List Nat → Nat → Except (Err × Ctx) (Ctx × List Nat × Nat)
  | 0, ctx, buffer, lcs => .ok (ctx, buffer, lcs)
  | fuel + 1, ctx, buffer, lcs =>
    if buffer.length % 3 = 1 ∧ ((lcs ≤ 3 ∧ available ≠ 1) ∨ 3 < lcs) then
      match backtrackOne encodeChar ctx buffer lcs with
      | .ok (ctx', buffer', lcs') =>
        c40BacktrackWhile encodeChar available fuel ctx' buffer' lcs'
      | .error e => .error e
    else .ok (ctx, buffer, lcs)

/-- The end-of-message tail adjustment inside `EncodeC40`'s loop
(lines 508-520): "avoid having a single C40 value in the last triplet". -/
def c40TailAdjust (encodeChar : Nat → Except Err (List Nat))
    (available : Int) (ctx : Ctx) (buffer : List Nat) (lcs : Nat) :
    Except (Err × Ctx) (Ctx × List Nat) :=
  let step1 : Except (Err × Ctx) (Ctx × List Nat × Nat) :=
    if buffer.length % 3 = 2 ∧ (available < 2 ∨ 2 < available) then
      backtrackOne encodeChar ctx buffer lcs
    else .ok (ctx, buffer, lcs)
  match step1 with
  | .ok (ctx1, buffer1, lcs1) =>
    match c40BacktrackWhile encodeChar available (buffer1.length + 1) ctx1 buffer1 lcs1 with
    | .ok (ctx2, buffer2, _) => .ok (ctx2, buffer2)
    | .error e => .error e
  | .error e => .error e

/-- The main loop of the shared `C40Encoder::EncodeC40` (lines 495-529):
returns the context and buffer that are handed to `HandleEOD`.  Fuel
(one unit per consumed character) stands in for the C++ `while`. -/
def c40Loop (cap : Nat → Nat) (encodeChar : Nat → Except Err (List Nat))
    (encodingMode : Mode) :
    Nat → Ctx → List Nat → Except (Err × Ctx) (Ctx × List Nat)
  | 0, ctx, buffer => .ok (ctx, buffer)
  | fuel + 1, ctx, buffer =>
    if ctx.hasMore then
      let c := ctx.cur
      let ctx := ctx.setPos (ctx.pos + 1)
      match encodeChar c with
      | .error e => .error (e, ctx)
      | .ok vs =>
        let buffer := buffer ++ vs
        let lastCharSize := vs.length
        let unwritten := buffer.length / 3 * 2
        let curCodewordCount := ctx.count + unwritten
        let available := avail cap curCodewordCount
        if ¬ ctx.hasMore then
          c40TailAdjust encodeChar available ctx buffer lastCharSize
        else if buffer.length % 3 = 0 then
          let newMode := LookAheadTest ctx.message ctx.pos encodingMode
          if newMode ≠ encodingMode then .ok (ctx.setNE newMode, buffer)
          else c40Loop cap encodeChar encodingMode fuel ctx buffer
        else c40Loop cap encodeChar encodingMode fuel ctx buffer
    else .ok (ctx, buffer)

/-- `C40Encoder::EncodeC40(context, encodeChar, encodingMode)`:
run the loop, then always `HandleEOD`. -/
def encodeC40With (cap : Nat → Nat) (encodeChar : Nat → Except Err (List Nat))
    (encodingMode : Mode) (ctx : Ctx) : Except (Err × Ctx) Ctx :=
  match c40Loop cap encodeChar encodingMode (ctx.message.length + 1) ctx [] with
  | .ok (ctx', buffer) => c40HandleEOD cap ctx' buffer
  | .error e => .error e

/-- `C40Encoder::EncodeC40(context)`. -/
def EncodeC40 (cap : Nat → Nat) (ctx : Ctx) : Except (Err × Ctx) Ctx :=
  encodeC40With cap c40EncodeChar .c40 ctx

/-- `DMTextEncoder::EncodeText` (line 600-603).  The source passes
`C40_ENCODATION` — not `TEXT_ENCODATION` — as the `encodingMode` used for
the look-ahead invocation and comparison. -/
def EncodeText (cap : Nat → Nat) (ctx : Ctx) : Except (Err × Ctx) Ctx :=
  encodeC40With cap textEncodeChar .c40 ctx

/-- `X12Encoder::EncodeChar` (lines 609-633): every character maps to
exactly one X12 value. -/
def x12EncodeChar (c : Nat) : Except Err Nat :=
  if c = 13 then .ok 0
  else if c = 42 then .ok 1
  else if c = 62 then .ok 2
  else if c = 32 then .ok 3
  else if 48 ≤ c ∧ c ≤ 57 then .ok (c - 48 + 4)
  else if 65 ≤ c ∧ c ≤ 90 then .ok (c - 65 + 14)
  else .error .illegalCharacter

/-- `X12Encoder::HandleEOD` (lines 635-647), as the function body acts on
the context it receives: update symbol info at the current codeword count,
rewind the cursor by the buffer length, emit `X12_UNLATCH (254)` under the
three-way condition, and default `newEncoding` to Ascii if none is
pending.  NOTE: the source declares the parameter
`EncoderContext context` BY VALUE, so the caller never sees this result
(see `EncodeX12`). -/
def x12HandleEOD (cap : Nat → Nat) (ctx : Ctx) (buffer : List Nat) : Ctx :=
  let codewordCount := ctx.count
  let available := avail cap codewordCount
  let ctx1 := ctx.setPos (ctx.pos - buffer.length)
  let ctx2 := if 1 < ctx1.remaining ∨ 1 < available ∨ ctx1.remaining ≠ available
              then ctx1.add 254 else ctx1
  if ctx2.newEncoding = none then ctx2.setNE .ascii else ctx2

/-- The main loop of `X12Encoder::EncodeX12` (lines 651-667). -/
def x12Loop (cap : Nat → Nat) :
    Nat → Ctx → List Nat → Except (Err × Ctx) (Ctx × List Nat)
  | 0, ctx, buffer => .ok (ctx, buffer)
  | fuel + 1, ctx, buffer =>
    if ctx.hasMore then
      let c := ctx.cur
      let ctx := ctx.setPos (ctx.pos + 1)
      match x12EncodeChar c with
      | .error e => .error (e, ctx)
      | .ok v =>
        let buffer := buffer ++ [v]
        if buffer.length % 3 = 0 then
          let (ctx, buffer) := writeNextTriplet ctx buffer
          let newMode := LookAheadTest ctx.message ctx.pos .x12
          if newMode ≠ .x12 then .ok (ctx.setNE newMode, buffer)
          else x12Loop cap fuel ctx buffer
        else x12Loop cap fuel ctx buffer
    else .ok (ctx, buffer)

/-- `X12Encoder::EncodeX12` (lines 649-669).  The trailing
`HandleEOD(context, buffer)` call copies the context (the parameter at
line 635 is by value), so every mutation `HandleEOD` performs — the cursor
rewind, the 254 unlatch, the Ascii default — is computed and then
discarded; the caller continues with the loop's context unchanged. -/
def EncodeX12 (cap : Nat → Nat) (ctx : Ctx) : Except (Err × Ctx) Ctx :=
  match x12Loop cap (ctx.message.length + 1) ctx [] with
  | .ok (ctx', buffer) =>
    let _discardedCopy := x12HandleEOD cap ctx' buffer
    .ok ctx'
  | .error e => .error e

/-- `EdifactEncoder::EncodeChar` (lines 675-686). -/
def edifactEncodeChar (c : Nat) : Except Err Nat :=
  if 32 ≤ c ∧ c ≤ 63 then .ok c
  else if 64 ≤ c ∧ c ≤ 94 then .ok (c - 64)
  else .error .illegalCharacter

/-- `EdifactEncoder::EncodeToCodewords(sb, 0)` (lines 688-713):
pack up to four 6-bit values into 24 bits and slice off one codeword per
value beyond the first two.  Empty input throws `std::invalid_argument`. -/
def edifactToCodewords (sb : List Nat) : Except Err (List Nat) :=
  let len := sb.length
  if len = 0 then .error .illegalCharacter
  else
    let c1 := sb.getD 0 0
    let c2 := if 2 ≤ len then sb.getD 1 0 else 0
    let c3 := if 3 ≤ len then sb.getD 2 0 else 0
    let c4 := if 4 ≤ len then sb.getD 3 0 else 0
    let v := c1 * 2 ^ 18 + c2 * 2 ^ 12 + c3 * 2 ^ 6 + c4
    let cw1 := v / 2 ^ 16 % 256
    let cw2 := v / 2 ^ 8 % 256
    let cw3 := v % 256
    .ok ([cw1] ++ (if 2 ≤ len then [cw2] else []) ++ (if 3 ≤ len then [cw3] else []))

/-- `EdifactEncoder::HandleEOD` (lines 721-773).  The C++ `return`s inside
the `try` leave the function without reaching the trailing
`setNewEncoding(ASCII)`; the `catch (...)` sets Ascii and rethrows, and
the context is a reference, so the caller sees that assignment on the
error path. -/
def edifactHandleEOD (cap : Nat → Nat) (ctx : Ctx) (buffer : List Nat) :
    Except (Err × Ctx) Ctx :=
  let count := buffer.length
  if count = 0 then .ok ctx
  else if count = 1 ∧ ctx.remaining = 0 ∧ avail cap ctx.count ≤ 2 then .ok ctx
  else if 4 < count then .error (.illegalCharacter, ctx.setNE .ascii)
  else
    match edifactToCodewords buffer with
    | .error e => .error (e, ctx.setNE .ascii)
    | .ok encoded =>
      let restChars := count - 1
      let endOfSymbolReached := ! ctx.hasMore
      let restInAscii0 := endOfSymbolReached && decide (restChars ≤ 2)
      -- `available = dataCapacity(codewordCount + restChars) - codewordCount`
      let restInAscii :=
        if restChars ≤ 2 ∧ 3 ≤ (cap (ctx.count + restChars) : Int) - ctx.count
        then false else restInAscii0
      if restInAscii then
        .ok ((ctx.setPos (ctx.pos - restChars)).setNE .ascii)
      else
        .ok ((encoded.foldl Ctx.add ctx).setNE .ascii)

/-- The main loop of `EdifactEncoder::EncodeEdifact` (lines 777-797).
Note the source encodes the character before advancing the cursor, flushes
three codewords whenever four values have accumulated, and on a non-EDIFACT
look-ahead result requests Ascii (not the look-ahead's choice). -/
def edifactLoop (cap : Nat → Nat) :
    Nat → Ctx → List Nat → Except (Err × Ctx) (Ctx × List Nat)
  | 0, ctx, buffer => .ok (ctx, buffer)
  | fuel + 1, ctx, buffer =>
    if ctx.hasMore then
      match edifactEncodeChar ctx.cur with
      | .error e => .error (e, ctx)
      | .ok v =>
        let ctx := ctx.setPos (ctx.pos + 1)
        let buffer := buffer ++ [v]
        if 4 ≤ buffer.length then
          match edifactToCodewords buffer with
          | .error e => .error (e, ctx)
          | .ok cws =>
            let ctx := cws.foldl Ctx.add ctx
            let buffer := buffer.drop 4
            let newMode := LookAheadTest ctx.message ctx.pos .edifact
            if newMode ≠ .edifact then .ok (ctx.setNE .ascii, buffer)
            else edifactLoop cap fuel ctx buffer
        else edifactLoop cap fuel ctx buffer
    else .ok (ctx, buffer)

/-- `EdifactEncoder::EncodeEdifact` (lines 775-800): loop, push the
unlatch value 31, hand off to `HandleEOD`. -/
def EncodeEdifact (cap : Nat → Nat) (ctx : Ctx) : Except (Err × Ctx) Ctx :=
  match edifactLoop cap (ctx.message.length + 1) ctx [] with
  | .ok (ctx', buffer) => edifactHandleEOD cap ctx' (buffer ++ [31])
  | .error e => .error e

/-- `Base256Encoder::Randomize255State` (lines 806-816). -/
def Randomize255State (ch pos : Nat) : Nat :=
  let pseudoRandom := (149 * pos) % 255 + 1
  let tempVariable := ch + pseudoRandom
  if tempVariable ≤ 255 then tempVariable else tempVariable - 256

/-- The consumption loop of `Base256Encoder::EncodeBase256`
(lines 822-833): buffer starts with the one-byte length placeholder. -/
def base256Loop :
    Nat → Ctx → List Nat → Ctx × List Nat
  | 0, ctx, buffer => (ctx, buffer)
  | fuel + 1, ctx, buffer =>
    if ctx.hasMore then
      let c := ctx.cur
      let buffer := buffer ++ [c]
      let ctx := ctx.setPos (ctx.pos + 1)
      let newMode := LookAheadTest ctx.message ctx.pos .base256
      if newMode ≠ .base256 then (ctx.setNE newMode, buffer)
      else base256Loop fuel ctx buffer
    else (ctx, buffer)

/-- The final emission of `EncodeBase256` (lines 851-853): every buffer
byte goes out as `Randomize255State(b, codewordCount + 1)`. -/
def emit255 (ctx : Ctx) (buffer : List Nat) : Ctx :=
  buffer.foldl (fun a c => a.add (Randomize255State c (a.count + 1))) ctx

/-- The post-loop part of `Base256Encoder::EncodeBase256` (lines 834-854):
write the length prefix (one or two bytes) only when characters remain or
padding follows, fail with `MessageTooLong` past 1555, then emit the
randomized buffer. -/
def base256Finish (cap : Nat → Nat) (ctx : Ctx) (buffer : List Nat) :
    Except (Err × Ctx) Ctx :=
  let dataCount := buffer.length - 1
  let lengthFieldSize := 1
  let currentSize := ctx.count + dataCount + lengthFieldSize
  let mustPad := 0 < (cap currentSize : Int) - currentSize
  if ctx.hasMore ∨ mustPad then
    if dataCount ≤ 249 then
      .ok (emit255 ctx (buffer.set 0 dataCount))
    else if 249 < dataCount ∧ dataCount ≤ 1555 then
      .ok (emit255 ctx (((buffer.set 0 (dataCount / 250 + 249)).take 1) ++
        [dataCount % 250] ++ (buffer.set 0 (dataCount / 250 + 249)).drop 1))
    else .error (.messageTooLong, ctx)
  else .ok (emit255 ctx buffer)

/-- `Base256Encoder::EncodeBase256` (lines 818-854). -/
def EncodeBase256 (cap : Nat → Nat) (ctx : Ctx) : Except (Err × Ctx) Ctx :=
  let (ctx', buffer) := base256Loop (ctx.message.length + 1) ctx [0]
  base256Finish cap ctx' buffer

/-- Dispatch of the driver's `switch (encodingMode)` (lines 907-914). -/
def runMode (cap : Nat → Nat) : Mode → Ctx → Except (Err × Ctx) Ctx
  | .ascii, ctx => .ok (EncodeASCII ctx)
  | .c40, ctx => EncodeC40 cap ctx
  | .text, ctx => EncodeText cap ctx
  | .x12, ctx => EncodeX12 cap ctx
  | .edifact, ctx => EncodeEdifact cap ctx
  | .base256, ctx => EncodeBase256 cap ctx

/-- The driver's compaction loop (lines 906-919): dispatch while
characters remain; adopt and clear a pending `newEncoding`. -/
def encodeLoop (cap : Nat → Nat) :
    Nat → Mode → Ctx → Except (Err × Ctx) (Mode × Ctx)
  | 0, _, ctx => .error (.outOfFuel, ctx)
  | fuel + 1, mode, ctx =>
    if ctx.hasMore then
      match runMode cap mode ctx with
      | .error e => .error e
      | .ok ctx' =>
        match ctx'.newEncoding with
        | some m => encodeLoop cap fuel m { ctx' with newEncoding := none }
        | none => encodeLoop cap fuel mode ctx'
    else .ok (mode, ctx)

/-- The padding `while` of the driver (lines 932-934), written with its
iteration count `capacity - cw.length` made explicit. -/
def padLoopGo : Nat → List Nat → List Nat
  | 0, cw => cw
  | n + 1, cw => padLoopGo n (cw ++ [Randomize253State 129 (cw.length + 1)])

/-- Driver finalization (lines 920-936): unlatch if a non-terminal mode is
still active and room remains, one PAD, then randomized padding. -/
def finalize (cap : Nat → Nat) (mode : Mode) (ctx : Ctx) : List Nat :=
  let len := ctx.count
  let capacity := cap len
  let cw1 := if len < capacity ∧ mode ≠ .ascii ∧ mode ≠ .base256
             then ctx.codewords ++ [254] else ctx.codewords
  let cw2 := if cw1.length < capacity then cw1 ++ [129] else cw1
  padLoopGo (capacity - cw2.length) cw2

/-- The macro-05 header `"[)>\x1E05\x1D"` as octets. -/
def header05 : List Nat := [91, 41, 62, 30, 48, 53, 29]

/-- The macro-06 header `"[)>\x1E06\x1D"` as octets. -/
def header06 : List Nat := [91, 41, 62, 30, 48, 54, 29]

/-- The macro trailer `"\x1E\x04"` as octets. -/
def trailerM : List Nat := [30, 4]

/-- `StartsWith` (line 858): note the strict `s.length() > ss.length()`. -/
def startsWithM (s ss : List Nat) : Bool :=
  decide (ss.length < s.length) && decide (s.take ss.length = ss)

/-- `EndsWith` (line 863). -/
def endsWithM (s ss : List Nat) : Bool :=
  decide (ss.length < s.length) && decide (s.drop (s.length - ss.length) = ss)

/-- The macro shortcut of `HighLevelEncoder::Encode` (lines 894-903). -/
def applyHeaderShortcut (ctx : Ctx) : Ctx :=
  if startsWithM ctx.message header05 && endsWithM ctx.message trailerM then
    { ctx with codewords := ctx.codewords ++ [236], skipAtEnd := 2,
               pos := header05.length }
  else if startsWithM ctx.message header06 && endsWithM ctx.message trailerM then
    { ctx with codewords := ctx.codewords ++ [237], skipAtEnd := 2,
               pos := header06.length }
  else ctx

/-- Driver fuel: each loop iteration either consumes a character or emits
at least one codeword before the next consumption; this bound is never
reached by a terminating C++ run of the modelled executions. -/
def fuelFor (msg : List Nat) : Nat := 2 * msg.length + 8

/-- `HighLevelEncoder::Encode` (lines 879-937) for catalog `cap`:
ISO-8859-1 transcoding is the caller's (external) duty, so the input is
already the octet list. -/
def dmEncode (cap : Nat → Nat) (msg : List Nat) : Except Err (List Nat) :=
  match encodeLoop cap (fuelFor msg) .ascii
      (applyHeaderShortcut ⟨msg, 0, [], none, 0⟩) with
  | .error (e, _) => .error e
  | .ok (mode, ctx) => .ok (finalize cap mode ctx)

/-- Closed form of the driver's randomized padding: the codewords the
`while` of lines 932-934 appends after position `len`. -/
def fill253 (capacity len : Nat) : List Nat :=
  (List.range (capacity - len)).map (fun i => Randomize253State 129 (len + 1 + i))

/-- A second spec-conformant catalog (capacity ≥ requested, smallest of
its capacities {8, 10, ...}): used to separate catalog-dependent from
catalog-independent behavior. -/
def altCap (n : Nat) : Nat := if n ≤ 8 then 8 else stdCap n

/-- All values of a codeword (or octet) list lie in 0..255. -/
def InRange (l : List Nat) : Prop := ∀ x ∈ l, x ≤ 255

/-- The encoding invariant threaded through the compactors: the message
octets and the emitted codewords are all in 0..255. -/
def CtxInv (ctx : Ctx) : Prop := InRange ctx.message ∧ InRange ctx.codewords

/-! ## Helper lemmas -/

/-- The standard catalog respects the spec's interface contract:
capacity is at least the requested count. -/
theorem stdCap_ge (n : Nat) : n ≤ stdCap n := by
  unfold stdCap
  cases h : capacities.find? (fun c => n ≤ c) with
  | none => simp
  | some c =>
    have := List.find?_some h
    simpa using this

/-- The alternative catalog also respects the interface contract. -/
theorem altCap_ge (n : Nat) : n ≤ altCap n := by
  unfold altCap
  split
  · omega
  · exact stdCap_ge n

/-- The flush loop of `HandleEOD` appends exactly the packed codewords of
the full triples. -/
theorem c40FlushLoop_eq (ctx : Ctx) (buffer : List Nat) :
    c40FlushLoop ctx buffer =
      { ctx with codewords := ctx.codewords ++ triplesCW buffer } := by
  induction ctx, buffer using c40FlushLoop.induct with
  | case1 ctx c1 c2 c3 rest ih =>
    rw [show c40FlushLoop ctx (c1 :: c2 :: c3 :: rest) =
          c40FlushLoop ((ctx.add (packC40 c1 c2 c3 / 256)).add (packC40 c1 c2 c3 % 256)) rest
        from rfl]
    rw [ih, triplesCW]
    simp [Ctx.add]
  | case2 t ctx h =>
    match t, h with
    | [], _ => simp [c40FlushLoop, triplesCW]
    | [a], _ => simp [c40FlushLoop, triplesCW]
    | [a, b], _ => simp [c40FlushLoop, triplesCW]
    | a :: b :: c :: rest, h => exact absurd rfl (h a b c rest)

/-- The padding loop appends exactly the randomized fill of its
iteration count. -/
theorem padLoopGo_eq (n : Nat) (cw : List Nat) :
    padLoopGo n cw =
      cw ++ (List.range n).map (fun i => Randomize253State 129 (cw.length + 1 + i)) := by
  induction n generalizing cw with
  | zero => simp [padLoopGo]
  | succ n ih =>
    rw [padLoopGo, ih, List.range_succ_eq_map]
    simp [List.map_map, Function.comp]
    intro a _
    congr 1
    omega

/-- `finalize` in closed form: possible unlatch, possible PAD, randomized
fill, via `fill253`. -/
theorem finalize_eq (cap : Nat → Nat) (mode : Mode) (ctx : Ctx) :
    finalize cap mode ctx =
      (let capacity := cap ctx.count
       let cw1 := if ctx.count < capacity ∧ mode ≠ .ascii ∧ mode ≠ .base256
                  then ctx.codewords ++ [254] else ctx.codewords
       let cw2 := if cw1.length < capacity then cw1 ++ [129] else cw1
       cw2 ++ fill253 capacity cw2.length) := by
  unfold finalize fill253
  rw [padLoopGo_eq]

/-- The length of the finalized output is exactly the capacity the catalog
selects for the loop's codeword count, for any interface-conformant
catalog. -/
theorem finalize_length (cap : Nat → Nat) (hcap : ∀ n, n ≤ cap n)
    (mode : Mode) (ctx : Ctx) :
    (finalize cap mode ctx).length = cap ctx.count := by
  have hlen : ctx.codewords.length ≤ cap ctx.codewords.length := hcap _
  rw [finalize_eq]
  simp only [Ctx.count, fill253, List.length_append, List.length_map, List.length_range]
  split <;> split <;>
    simp only [List.length_append, List.length_cons, List.length_nil] at * <;> omega

/-! ## Claim C1 -/

/-- Claim C1 (code bug witnessed): on the message of seven CR octets the
driver latches X12 (238) and flushes two triples (0,1 twice); the X12
compactor ends with one unflushed value and `HandleEOD` — acting on the
by-value copy of the context — computes the cursor rewind to 6, the
X12_UNLATCH 254 and the Ascii default (third conjunct), yet `EncodeX12`
returns the loop's context unchanged (second conjunct), so the full
encode drops the seventh character and emits neither 254 nor the Ascii
re-encoding of it (first conjunct). -/
theorem c1_x12_eod_effects_discarded :
    dmEncode stdCap (List.replicate 7 13) = .ok [238, 0, 1, 0, 1] ∧
    EncodeX12 stdCap ⟨List.replicate 7 13, 0, [238], none, 0⟩ =
      .ok ⟨List.replicate 7 13, 7, [238, 0, 1, 0, 1], none, 0⟩ ∧
    x12HandleEOD stdCap ⟨List.replicate 7 13, 7, [238, 0, 1, 0, 1], none, 0⟩ [0] =
      ⟨List.replicate 7 13, 6, [238, 0, 1, 0, 1, 254], some .ascii, 0⟩ :=
  ⟨rfl, rfl, rfl⟩

/-! ## Claim C2 -/

/-- Claim C2 (code bug witnessed): `DMTextEncoder::EncodeText` hands
`C40_ENCODATION` to the shared compactor, so on the message of eight
`'a'` octets (for which the driver latches Text, 239) the arbitration at
offset 3 is made with current mode C40 and returns Ascii (first
conjunct), aborting Text compaction after a single triple (third
conjunct: the compactor breaks at position 3 with a pending Ascii
request after 89,191,254); had the arbiter been invoked with current
mode Text, as the claim states, it would have returned Text (second
conjunct) and compaction would have continued.  The fourth conjunct is
the resulting full encode. -/
theorem c2_text_lookahead_mode :
    LookAheadTest (List.replicate 8 97) 3 .c40 = .ascii ∧
    LookAheadTest (List.replicate 8 97) 3 .text = .text ∧
    EncodeText stdCap ⟨List.replicate 8 97, 0, [239], none, 0⟩ =
      .ok ⟨List.replicate 8 97, 3, [239, 89, 191, 254], some .ascii, 0⟩ ∧
    dmEncode stdCap (List.replicate 8 97) =
      .ok [239, 89, 191, 254, 98, 98, 98, 98, 98, 129] :=
  ⟨rfl, rfl, rfl, rfl⟩

/-! ## Claim C3 -/

/-- Claim C3 counterexample: if the accumulation really started from the
initial counts `[0.5, 1, 1, 1, 1, 1.25]` (scaled by 12:
`⟨6, 12, 12, 12, 12, 15⟩`) for `currentMode = Ascii`, the look-ahead on
"AAAA" from offset 0 would pick C40 (second conjunct); the source's
unconditional `charCounts[currentMode] = 0` instead zeroes the Ascii
count, and `LookAheadTest` picks Ascii (first conjunct). -/
theorem c3_counterexample :
    LookAheadTest [65, 65, 65, 65] 0 .ascii = .ascii ∧
    lookAheadLoop [65, 65, 65, 65] 0 [65, 65, 65, 65] 0 ⟨6, 12, 12, 12, 12, 15⟩ = .c40 :=
  ⟨rfl, rfl⟩

/-- Claim C3 (amended): the accumulators start from
`[0.5, 1, 1, 1, 1, 1.25]`, the step-J doubling is applied only when
`currentMode ≠ Ascii`, but `counts[currentMode] = 0` is applied
unconditionally; hence (scaled by 12) the accumulation starts from
`⟨0,12,12,12,12,15⟩` for Ascii and from the doubled-then-zeroed vectors
for the other five modes. -/
theorem c3_initial_counts (msg : List Nat) (start : Nat) :
    LookAheadTest msg start .ascii =
      (if msg.length ≤ start then .ascii
       else lookAheadLoop msg start (msg.drop start) 0 ⟨0, 12, 12, 12, 12, 15⟩) ∧
    LookAheadTest msg start .c40 =
      (if msg.length ≤ start then .c40
       else lookAheadLoop msg start (msg.drop start) 0 ⟨12, 0, 24, 24, 24, 30⟩) ∧
    LookAheadTest msg start .text =
      (if msg.length ≤ start then .text
       else lookAheadLoop msg start (msg.drop start) 0 ⟨12, 24, 0, 24, 24, 30⟩) ∧
    LookAheadTest msg start .x12 =
      (if msg.length ≤ start then .x12
       else lookAheadLoop msg start (msg.drop start) 0 ⟨12, 24, 24, 0, 24, 30⟩) ∧
    LookAheadTest msg start .edifact =
      (if msg.length ≤ start then .edifact
       else lookAheadLoop msg start (msg.drop start) 0 ⟨12, 24, 24, 24, 0, 30⟩) ∧
    LookAheadTest msg start .base256 =
      (if msg.length ≤ start then .base256
       else lookAheadLoop msg start (msg.drop start) 0 ⟨12, 24, 24, 24, 24, 0⟩) :=
  ⟨rfl, rfl, rfl, rfl, rfl, rfl⟩

/-! ## Claim C4 -/

/-- Claim C4 counterexample: `encode("ABCDEF")` with the standard
shape-None catalog yields exactly `[230, 89, 233, 109, 36]`: the first
triple `('A','B','C') = (14,15,16)` packs to `1600·14+40·15+16+1 = 23017`,
i.e. codewords 89,233 — not 34,113 (the claim's 8817 is not the value of
that expression) — and since the smallest fitting symbol for 5 codewords
has capacity exactly 5, no C40 unlatch 254 (and no padding) follows. -/
theorem c4_counterexample :
    dmEncode stdCap [65, 66, 67, 68, 69, 70] = .ok [230, 89, 233, 109, 36] ∧
    packC40 14 15 16 = 23017 ∧
    (34 ∉ [230, 89, 233, 109, 36]) ∧ (254 ∉ [230, 89, 233, 109, 36]) :=
  ⟨rfl, rfl, by decide, by decide⟩

/-- Claim C4 (amended): `encode("ABCDEF")` latches C40 (230) and encodes
the triples `('A','B','C') = (14,15,16)` and `('D','E','F') = (17,18,19)`
as the codeword pairs of `1600·c1+40·c2+c3+1`, i.e. 89,233 (v = 23017)
and 109,36 (v = 27940); the C40 unlatch 254 and padding follow exactly
when the capacity selected for 5 codewords exceeds 5 — they are absent
under the standard catalog (capacity 5) and present under a conformant
catalog whose smallest capacity is 8, where PAD 129 and one randomized
pad codeword complete the symbol. -/
theorem c4_abcdef_codewords :
    dmEncode stdCap [65, 66, 67, 68, 69, 70] =
      .ok ([230] ++ [packC40 14 15 16 / 256, packC40 14 15 16 % 256] ++
           [packC40 17 18 19 / 256, packC40 17 18 19 % 256]) ∧
    packC40 14 15 16 = 23017 ∧ packC40 17 18 19 = 27940 ∧
    stdCap 5 = 5 ∧ altCap 5 = 8 ∧
    dmEncode altCap [65, 66, 67, 68, 69, 70] =
      .ok ([230, 89, 233, 109, 36] ++ [254] ++ [129] ++ fill253 8 7) :=
  ⟨rfl, rfl, rfl, rfl, rfl, rfl⟩

/-! ## Claim C5 -/

/-- Claim C5: the four-way case split of `C40Encoder::HandleEOD` with
`rest = buffer.len % 3` and `available` computed at
`codewordCount + (buffer.len / 3) * 2`:
`rest = 2` appends the Shift-1 sentinel 0 and flushes everything, with
254 iff characters remain; `rest = 1` with `available = 1` flushes the
full triples, emits 254 iff characters remain, and steps the cursor
back; `rest = 0` flushes and emits 254 iff `available > 0` or characters
remain; the remaining combination (`rest = 1`, `available ≠ 1`) is the
`InternalInvariant` error; every non-error case sets
`newEncoding = Ascii`. -/
theorem c5_c40_eod_cases (cap : Nat → Nat) (ctx : Ctx) (buffer : List Nat) :
    (buffer.length % 3 = 2 →
      c40HandleEOD cap ctx buffer = .ok
        { ctx with
          codewords := ctx.codewords ++ triplesCW (buffer ++ [0]) ++
            (if ctx.hasMore then [254] else []),
          newEncoding := some .ascii }) ∧
    (buffer.length % 3 = 1 →
      avail cap (ctx.count + buffer.length / 3 * 2) = 1 →
      c40HandleEOD cap ctx buffer = .ok
        { ctx with
          codewords := ctx.codewords ++ triplesCW buffer ++
            (if ctx.hasMore then [254] else []),
          pos := ctx.pos - 1,
          newEncoding := some .ascii }) ∧
    (buffer.length % 3 = 0 →
      c40HandleEOD cap ctx buffer = .ok
        { ctx with
          codewords := ctx.codewords ++ triplesCW buffer ++
            (if 0 < avail cap (ctx.count + buffer.length / 3 * 2) ∨ ctx.hasMore
             then [254] else []),
          newEncoding := some .ascii }) ∧
    (buffer.length % 3 = 1 →
      avail cap (ctx.count + buffer.length / 3 * 2) ≠ 1 →
      c40HandleEOD cap ctx buffer = .error (.internalInvariant, ctx)) := by
  refine ⟨fun h2 => ?_, fun h1 ha => ?_, fun h0 => ?_, fun h1 ha => ?_⟩
  · unfold c40HandleEOD
    rw [if_pos h2, c40FlushLoop_eq]
    by_cases hm : (ctx.pos : Int) < (ctx.message.length : Int) - (ctx.skipAtEnd : Int) <;>
      simp [hm, Ctx.hasMore, Ctx.total, Ctx.add, Ctx.setNE]
  · unfold c40HandleEOD
    rw [if_neg (by omega), if_pos ⟨ha, h1⟩, c40FlushLoop_eq]
    by_cases hm : (ctx.pos : Int) < (ctx.message.length : Int) - (ctx.skipAtEnd : Int) <;>
      simp [hm, Ctx.hasMore, Ctx.total, Ctx.add, Ctx.setNE, Ctx.setPos]
  · unfold c40HandleEOD
    rw [if_neg (by omega), if_neg (by omega), if_pos h0, c40FlushLoop_eq]
    by_cases hm : (ctx.pos : Int) < (ctx.message.length : Int) - (ctx.skipAtEnd : Int) <;>
      by_cases hv : 0 < avail cap (ctx.count + buffer.length / 3 * 2) <;>
      simp [hm, hv, Ctx.hasMore, Ctx.total, Ctx.add, Ctx.setNE]
  · unfold c40HandleEOD
    rw [if_neg (by omega), if_neg (by simp [h1, ha]), if_neg (by omega)]

/-- Claim C5 witness: `rest = 2` at a concrete state — buffer `[3,4]`
becomes the triple `(3,4,0)` = codewords 19,97; no characters remain, so
no 254. -/
theorem c5_c40_eod_cases_witness :
    c40HandleEOD stdCap ⟨[65, 66], 2, [230], none, 0⟩ [3, 4] =
      .ok ⟨[65, 66], 2, [230, 19, 97], some .ascii, 0⟩ := by
  have h := (c5_c40_eod_cases stdCap ⟨[65, 66], 2, [230], none, 0⟩ [3, 4]).1 (by decide)
  simpa using h

/-! ## Claim C6 -/

/-- Claim C6: whenever the driver succeeds, its output is the compaction
loop's codewords followed by 254 — present iff the codeword count is
below the selected capacity and the final mode is neither Ascii nor
Base256 — then a single PAD 129 iff still below capacity, then the
`randomize253(129, pos + 1)` fill; the output length equals the selected
symbol's data capacity. -/
theorem c6_driver_finalization (cap : Nat → Nat) (msg out : List Nat)
    (hcap : ∀ n, n ≤ cap n) (h : dmEncode cap msg = .ok out) :
    ∃ mode ctx,
      encodeLoop cap (fuelFor msg) .ascii
        (applyHeaderShortcut ⟨msg, 0, [], none, 0⟩) = .ok (mode, ctx) ∧
      out = (let capacity := cap ctx.count
             let cw1 := if ctx.count < capacity ∧ mode ≠ .ascii ∧ mode ≠ .base256
                        then ctx.codewords ++ [254] else ctx.codewords
             let cw2 := if cw1.length < capacity then cw1 ++ [129] else cw1
             cw2 ++ fill253 capacity cw2.length) ∧
      out.length = cap ctx.count := by
  unfold dmEncode at h
  cases heq : encodeLoop cap (fuelFor msg) .ascii
      (applyHeaderShortcut ⟨msg, 0, [], none, 0⟩) with
  | error e =>
    obtain ⟨e1, e2⟩ := e
    rw [heq] at h
    simp at h
  | ok p =>
    obtain ⟨mode, ctx⟩ := p
    rw [heq] at h
    have hfin : finalize cap mode ctx = out := by simpa using h
    refine ⟨mode, ctx, rfl, ?_, ?_⟩
    · rw [← hfin, finalize_eq]
    · rw [← hfin, finalize_length cap hcap mode ctx]

/-- Claim C6 witness: the message `"A"` encodes to `[66, 129, 70]` —
Ascii 66, PAD 129, one randomized pad — whose length 3 is the capacity
the standard catalog selects for one codeword. -/
theorem c6_driver_finalization_witness :
    ∃ mode ctx,
      encodeLoop stdCap (fuelFor [65]) .ascii
        (applyHeaderShortcut ⟨[65], 0, [], none, 0⟩) = .ok (mode, ctx) ∧
      ([66, 129, 70] : List Nat) =
        (let capacity := stdCap ctx.count
         let cw1 := if ctx.count < capacity ∧ mode ≠ .ascii ∧ mode ≠ .base256
                    then ctx.codewords ++ [254] else ctx.codewords
         let cw2 := if cw1.length < capacity then cw1 ++ [129] else cw1
         cw2 ++ fill253 capacity cw2.length) ∧
      ([66, 129, 70] : List Nat).length = stdCap ctx.count :=
  c6_driver_finalization stdCap [65] [66, 129, 70] stdCap_ge rfl

/-! ## Claim C7 -/

/-- Claim C7: the Base-256 epilogue with `dataCount = buffer.len - 1` and
`mustPad = capacity - (codewordCount + dataCount + 1) > 0`: the length
prefix is written only when characters remain or `mustPad` holds — the
buffer goes out unmodified otherwise; in that case a single length byte
`dataCount` is used up to 249, a two-byte prefix
`dataCount/250 + 249, dataCount%250` (the second byte inserted at
position 1) up to 1555, and beyond 1555 the encoder fails with
`MessageTooLong`. -/
theorem c7_base256_length_field (cap : Nat → Nat) (ctx : Ctx) (buffer : List Nat) :
    (¬ (ctx.hasMore ∨ 0 < avail cap (ctx.count + (buffer.length - 1) + 1)) →
      base256Finish cap ctx buffer = .ok (emit255 ctx buffer)) ∧
    ((ctx.hasMore ∨ 0 < avail cap (ctx.count + (buffer.length - 1) + 1)) →
      buffer.length - 1 ≤ 249 →
      base256Finish cap ctx buffer =
        .ok (emit255 ctx (buffer.set 0 (buffer.length - 1)))) ∧
    (∀ b0 rest, buffer = b0 :: rest →
      (ctx.hasMore ∨ 0 < avail cap (ctx.count + (buffer.length - 1) + 1)) →
      249 < buffer.length - 1 → buffer.length - 1 ≤ 1555 →
      base256Finish cap ctx buffer =
        .ok (emit255 ctx
          (((buffer.length - 1) / 250 + 249) :: ((buffer.length - 1) % 250) :: rest))) ∧
    ((ctx.hasMore ∨ 0 < avail cap (ctx.count + (buffer.length - 1) + 1)) →
      1555 < buffer.length - 1 →
      base256Finish cap ctx buffer = .error (.messageTooLong, ctx)) := by
  refine ⟨fun hP => ?_, fun hP hd => ?_, fun b0 rest hb hP hd1 hd2 => ?_,
    fun hP hd => ?_⟩
  · unfold base256Finish
    rw [if_neg (by simpa [avail] using hP)]
  · unfold base256Finish
    rw [if_pos (by simpa [avail] using hP), if_pos hd]
  · subst hb
    unfold base256Finish
    rw [if_pos (by simpa [avail] using hP), if_neg (by omega),
      if_pos ⟨by omega, by omega⟩]
    simp
  · unfold base256Finish
    rw [if_pos (by simpa [avail] using hP), if_neg (by omega), if_neg (by omega)]

/-- Claim C7 witness: one-byte prefix case at a concrete state: buffer
`[0, 7, 7]` (two data octets), more characters remaining — the length
byte 2 replaces the placeholder. -/
theorem c7_base256_length_field_witness :
    base256Finish stdCap ⟨[1, 2, 3], 2, [231], none, 0⟩ [0, 7, 7] =
      .ok (emit255 ⟨[1, 2, 3], 2, [231], none, 0⟩ ([0, 7, 7].set 0 2)) :=
  (c7_base256_length_field stdCap ⟨[1, 2, 3], 2, [231], none, 0⟩ [0, 7, 7]).2.1
    (by decide) (by decide)

/-! ## Claim C8 -/

/-- Claim C8 (amended): when computing the codewords from the buffer
fails (the reachable failure is the `count > 4` guard, thrown and then
caught), the error propagates with `newEncoding` already set to Ascii;
every non-error case also finishes with `newEncoding = Ascii` EXCEPT the
two early `return`s — the empty buffer, and the single-unlatch shortcut
(`count = 1`, no characters remaining, `available ≤ 2`) — which leave the
context untouched. -/
theorem c8_edifact_eod_newencoding (cap : Nat → Nat) (ctx : Ctx) (buffer : List Nat) :
    (4 < buffer.length →
      edifactHandleEOD cap ctx buffer = .error (.illegalCharacter, ctx.setNE .ascii)) ∧
    (buffer.length = 0 → edifactHandleEOD cap ctx buffer = .ok ctx) ∧
    (buffer.length = 1 → ctx.remaining = 0 → avail cap ctx.count ≤ 2 →
      edifactHandleEOD cap ctx buffer = .ok ctx) ∧
    (1 ≤ buffer.length → buffer.length ≤ 4 →
      ¬ (buffer.length = 1 ∧ ctx.remaining = 0 ∧ avail cap ctx.count ≤ 2) →
      ∃ ctx', edifactHandleEOD cap ctx buffer = .ok ctx' ∧
        ctx'.newEncoding = some .ascii) := by
  refine ⟨fun h4 => ?_, fun h0 => ?_, fun h1 hr hv => ?_, fun hl hu hns => ?_⟩
  · unfold edifactHandleEOD
    rw [if_neg (by omega), if_neg (by intro hc; exact absurd hc.1 (by omega)),
      if_pos h4]
  · unfold edifactHandleEOD
    rw [if_pos h0]
  · unfold edifactHandleEOD
    rw [if_neg (by omega), if_pos ⟨h1, hr, hv⟩]
  · unfold edifactHandleEOD
    rw [if_neg (by omega), if_neg hns, if_neg (by omega)]
    cases hcw : edifactToCodewords buffer with
    | error e =>
      unfold edifactToCodewords at hcw
      rw [if_neg (by omega)] at hcw
      cases hcw
    | ok vs =>
      simp only []
      split
      · exact ⟨_, rfl, rfl⟩
      · split
        · exact ⟨_, rfl, rfl⟩
        · exact ⟨_, rfl, rfl⟩

/-- Claim C8 witness: the error path at a concrete five-value buffer —
the `IllegalCharacter` failure propagates with `newEncoding = Ascii`
already set on the context. -/
theorem c8_edifact_eod_newencoding_witness :
    edifactHandleEOD stdCap ⟨[65], 1, [240], none, 0⟩ [1, 2, 3, 4, 5] =
      .error (.illegalCharacter, Ctx.setNE ⟨[65], 1, [240], none, 0⟩ .ascii) :=
  (c8_edifact_eod_newencoding stdCap ⟨[65], 1, [240], none, 0⟩ [1, 2, 3, 4, 5]).1
    (by decide)

/-- Claim C8 counterexample: the single-unlatch shortcut is a non-error
case in which the handler does NOT set `newEncoding` to Ascii: with the
lone unlatch value 31 in the buffer, no characters remaining and
`available = 0`, the context comes back completely unchanged, its
`newEncoding` still `none`. -/
theorem c8_counterexample :
    edifactHandleEOD stdCap ⟨[65], 1, [1, 2, 3], none, 0⟩ [31] =
      .ok ⟨[65], 1, [1, 2, 3], none, 0⟩ ∧
    (⟨[65], 1, [1, 2, 3], none, 0⟩ : Ctx).newEncoding = none :=
  ⟨rfl, rfl⟩

/-! ## Claim C10 -/

/-- A tie-break scan over characters that are all native X12 and none an
X12 terminator/separator runs to the end and yields C40. -/
theorem x12ScanGo_all_native (l : List Nat)
    (h : ∀ c ∈ l, IsNativeX12 c ∧ ¬ IsX12TermSep c) : x12ScanGo l = .c40 := by
  induction l with
  | nil => rfl
  | cons c rest ih =>
    obtain ⟨hn, hts⟩ := h c (by simp)
    unfold x12ScanGo
    rw [if_neg (by simpa using hts), if_neg (by simp [hn])]
    exact ih (fun c hc => h c (by simp [hc]))

/-- Claim C10: in step R's C40/X12 tie-break — ceiled C40 and X12 counts
equal, the C40+1 strict conditions against Ascii, Base256, Edifact and
Text, and Base256 not below Ascii — the result is the forward scan
started at `startpos + charsProcessed + 1` (first conjunct); step R's
result depends on the message only through the suffix from that index,
so the character immediately following the last processed one, at
`startpos + charsProcessed`, is never examined (second conjunct); and a
scan that reaches the end of the message meeting neither an X12
terminator/separator nor a non-native-X12 character returns C40 (third
conjunct). -/
theorem c10_tie_break_scan :
    (∀ (msg : List Nat) (sp cp : Nat) (k : Counts),
      k.toI.c = k.toI.x →
      k.toI.c + 1 < k.toI.a → k.toI.c + 1 < k.toI.b →
      k.toI.c + 1 < k.toI.e → k.toI.c + 1 < k.toI.t →
      ¬ k.toI.b < k.toI.a →
      stepR msg sp cp k = some (x12ScanIdx msg (sp + cp + 1))) ∧
    (∀ (msg₁ msg₂ : List Nat) (sp cp : Nat) (k : Counts),
      msg₁.drop (sp + cp + 1) = msg₂.drop (sp + cp + 1) →
      stepR msg₁ sp cp k = stepR msg₂ sp cp k) ∧
    (∀ (msg : List Nat) (p : Nat),
      (∀ c ∈ msg.drop p, IsNativeX12 c ∧ ¬ IsX12TermSep c) →
      x12ScanIdx msg p = .c40) := by
  refine ⟨?_, ?_, ?_⟩
  · intro msg sp cp k hcx ha hb he ht hab
    unfold stepR
    have hmin : k.toI.min6 = k.toI.c := by
      unfold ICounts.min6
      omega
    have hc_ind : (if k.toI.c = k.toI.min6 then (1 : Nat) else 0) = 1 :=
      if_pos hmin.symm
    have hmc : k.toI.minCount ≠ 1 := by
      unfold ICounts.minCount
      rw [hmin]
      split_ifs <;> omega
    rw [if_neg (by omega)]
    rw [if_neg (by rw [hc_ind]; omega)]
    rw [if_neg (by omega), if_neg (by omega), if_neg (by omega),
      if_pos ⟨ha, hb, he, ht⟩, if_neg (by omega), if_pos hcx]
  · intro msg₁ msg₂ sp cp k h
    simp only [stepR, x12ScanIdx, h]
  · intro msg p h
    exact x12ScanGo_all_native _ h

/-- Claim C10 witness: scaled counts `⟨108,84,108,84,108,108⟩` ceil to
`[9,7,9,7,9,9]` (C40 = X12 = 7, C40+1 = 8 strictly below the rest), so
step R returns the scan from index 0+4+1; messages `[65,65,66]` and
`[70,13,66]` differ at the never-examined indices below 2 (including a
terminator at index sp+cp) yet give the same step R result; and the scan
over all-native `[65,48,32]` from 0 yields C40. -/
theorem c10_tie_break_scan_witness :
    stepR [65, 65] 0 4 ⟨108, 84, 108, 84, 108, 108⟩ =
      some (x12ScanIdx [65, 65] 5) ∧
    stepR [65, 65, 66] 0 1 ⟨108, 84, 108, 84, 108, 108⟩ =
      stepR [70, 13, 66] 0 1 ⟨108, 84, 108, 84, 108, 108⟩ ∧
    x12ScanIdx [65, 48, 32] 0 = .c40 :=
  ⟨c10_tie_break_scan.1 [65, 65] 0 4 ⟨108, 84, 108, 84, 108, 108⟩
      (by decide) (by decide) (by decide) (by decide) (by decide) (by decide),
   c10_tie_break_scan.2.1 [65, 65, 66] [70, 13, 66] 0 1
      ⟨108, 84, 108, 84, 108, 108⟩ rfl,
   c10_tie_break_scan.2.2 [65, 48, 32] 0 (by decide)⟩

/-! ## Range lemmas for Claim C9 -/

theorem r253_le (ch pos : Nat) (h : ch ≤ 255) : Randomize253State ch pos ≤ 255 := by
  unfold Randomize253State
  dsimp only
  have hm : (149 * pos) % 253 < 253 := Nat.mod_lt _ (by omega)
  split <;> omega

theorem r255_le (ch pos : Nat) (h : ch ≤ 255) : Randomize255State ch pos ≤ 255 := by
  unfold Randomize255State
  dsimp only
  have hm : (149 * pos) % 255 < 255 := Nat.mod_lt _ (by omega)
  split <;> omega

theorem getD_le_of (l : List Nat) (b : Nat) (h : ∀ v ∈ l, v ≤ b) (i : Nat) :
    l.getD i 0 ≤ b := by
  rw [List.getD_eq_getElem?_getD]
  cases hg : l[i]? with
  | none => simp
  | some v =>
    have hv : v ∈ l := List.getElem?_mem hg
    simpa using h v hv

theorem getD_le (l : List Nat) (h : InRange l) (i : Nat) : l.getD i 0 ≤ 255 :=
  getD_le_of l 255 h i

theorem InRange.append {l1 l2 : List Nat} (h1 : InRange l1) (h2 : InRange l2) :
    InRange (l1 ++ l2) := by
  intro x hx
  rcases List.mem_append.1 hx with h | h
  · exact h1 x h
  · exact h2 x h

theorem CtxInv.add {ctx : Ctx} {v : Nat} (h : CtxInv ctx) (hv : v ≤ 255) :
    CtxInv (ctx.add v) := by
  refine ⟨h.1, h.2.append ?_⟩
  intro x hx
  simp at hx
  omega

theorem CtxInv.setPos {ctx : Ctx} (h : CtxInv ctx) (p : Nat) : CtxInv (ctx.setPos p) := h

theorem CtxInv.setNE {ctx : Ctx} (h : CtxInv ctx) (m : Mode) : CtxInv (ctx.setNE m) := h

theorem CtxInv.cur_le {ctx : Ctx} (h : CtxInv ctx) : ctx.cur ≤ 255 :=
  getD_le _ h.1 _

/-- The C40 values produced for any octet are at most 39 (checked over
all 256 octets). -/
theorem c40EncodeChar_le (c : Nat) (hc : c ≤ 255) {vs : List Nat}
    (h : c40EncodeChar c = .ok vs) : ∀ v ∈ vs, v ≤ 39 := by
  have H : ∀ c' < 256, (match c40EncodeChar c' with
      | .ok vs => vs.all (fun v => v ≤ 39)
      | .error _ => true) = true := by
    set_option maxRecDepth 4096 in decide
  have H2 := H c (by omega)
  rw [h] at H2
  simpa [List.all_eq_true, decide_eq_true_eq] using H2

/-- The Text values produced for any octet are at most 39. -/
theorem textEncodeChar_le (c : Nat) (hc : c ≤ 255) {vs : List Nat}
    (h : textEncodeChar c = .ok vs) : ∀ v ∈ vs, v ≤ 39 := by
  have H : ∀ c' < 256, (match textEncodeChar c' with
      | .ok vs => vs.all (fun v => v ≤ 39)
      | .error _ => true) = true := by
    set_option maxRecDepth 4096 in decide
  have H2 := H c (by omega)
  rw [h] at H2
  simpa [List.all_eq_true, decide_eq_true_eq] using H2

/-- The X12 value produced for any octet is at most 39. -/
theorem x12EncodeChar_le (c : Nat) (hc : c ≤ 255) {v : Nat}
    (h : x12EncodeChar c = .ok v) : v ≤ 39 := by
  have H : ∀ c' < 256, (match x12EncodeChar c' with
      | .ok v => decide (v ≤ 39)
      | .error _ => true) = true := by
    set_option maxRecDepth 4096 in decide
  have H2 := H c (by omega)
  rw [h] at H2
  simpa using H2

theorem packC40_le (c1 c2 c3 : Nat) (h1 : c1 ≤ 39) (h2 : c2 ≤ 39) (h3 : c3 ≤ 39) :
    packC40 c1 c2 c3 / 256 ≤ 255 ∧ packC40 c1 c2 c3 % 256 ≤ 255 := by
  unfold packC40
  constructor
  · have : 1600 * c1 + 40 * c2 + c3 + 1 ≤ 64000 := by omega
    omega
  · have := Nat.mod_lt (1600 * c1 + 40 * c2 + c3 + 1) (show 0 < 256 by omega)
    omega

theorem triplesCW_le (buf : List Nat) (h : ∀ v ∈ buf, v ≤ 39) :
    InRange (triplesCW buf) := by
  induction buf using triplesCW.induct with
  | case1 c1 c2 c3 rest ih =>
    have h1 := h c1 (by simp)
    have h2 := h c2 (by simp)
    have h3 := h c3 (by simp)
    have hp := packC40_le c1 c2 c3 h1 h2 h3
    intro x hx
    rw [triplesCW] at hx
    simp at hx
    rcases hx with hx | hx | hx
    · omega
    · omega
    · exact ih (fun v hv => h v (by simp [hv])) x hx
  | case2 t hne =>
    match t, hne with
    | [], _ => intro x hx; simp [triplesCW] at hx
    | [a], _ => intro x hx; simp [triplesCW] at hx
    | [a, b], _ => intro x hx; simp [triplesCW] at hx
    | a :: b :: c :: rest, hne => exact absurd rfl (hne a b c rest)

theorem encodeASCIIDigits_le (d1 d2 : Nat) : EncodeASCIIDigits d1 d2 ≤ 255 := by
  unfold EncodeASCIIDigits
  split
  · next h =>
    simp [IsDigit] at h
    omega
  · omega

theorem latchOf_le (m : Mode) : latchOf m ≤ 255 := by cases m <;> simp [latchOf]

theorem encodeASCII_inv (ctx : Ctx) (h : CtxInv ctx) : CtxInv (EncodeASCII ctx) := by
  unfold EncodeASCII
  dsimp only
  split
  · exact (h.add (encodeASCIIDigits_le _ _)).setPos _
  · split
    · exact (h.add (latchOf_le _)).setNE _
    · split
      · refine (((h.add (by omega)).add ?_)).setPos _
        have := h.cur_le
        omega
      · next hext =>
        refine (h.add ?_).setPos _
        have := h.cur_le
        simp [IsExtendedASCII] at hext
        omega

theorem backtrackOne_inv (encodeChar : Nat → Except Err (List Nat))
    (ctx : Ctx) (buffer : List Nat) (lcs : Nat) {ctx' : Ctx}
    {buffer' : List Nat} {lcs' : Nat}
    (h : backtrackOne encodeChar ctx buffer lcs = .ok (ctx', buffer', lcs'))
    (hbuf : ∀ v ∈ buffer, v ≤ 39) :
    ctx'.codewords = ctx.codewords ∧ ctx'.message = ctx.message ∧
      ctx'.skipAtEnd = ctx.skipAtEnd ∧ (∀ v ∈ buffer', v ≤ 39) := by
  unfold backtrackOne at h
  dsimp only at h
  cases he : encodeChar (ctx.setPos (ctx.pos - 1)).cur with
  | ok vs =>
    rw [he] at h
    simp only [Except.ok.injEq, Prod.mk.injEq] at h
    obtain ⟨rfl, rfl, rfl⟩ := h
    exact ⟨rfl, rfl, rfl, fun v hv => hbuf v (List.mem_of_mem_take hv)⟩
  | error e =>
    rw [he] at h
    cases h

theorem c40BacktrackWhile_inv (encodeChar : Nat → Except Err (List Nat))
    (available : Int) :
    ∀ (fuel : Nat) (ctx : Ctx) (buffer : List Nat) (lcs : Nat)
      {ctx' : Ctx} {buffer' : List Nat} {lcs' : Nat},
      c40BacktrackWhile encodeChar available fuel ctx buffer lcs =
        .ok (ctx', buffer', lcs') →
      (∀ v ∈ buffer, v ≤ 39) →
      ctx'.codewords = ctx.codewords ∧ ctx'.message = ctx.message ∧
        ctx'.skipAtEnd = ctx.skipAtEnd ∧ (∀ v ∈ buffer', v ≤ 39) := by
  intro fuel
  induction fuel with
  | zero =>
    intro ctx buffer lcs ctx' buffer' lcs' h hbuf
    unfold c40BacktrackWhile at h
    simp only [Except.ok.injEq, Prod.mk.injEq] at h
    obtain ⟨rfl, rfl, rfl⟩ := h
    exact ⟨rfl, rfl, rfl, hbuf⟩
  | succ fuel ih =>
    intro ctx buffer lcs ctx' buffer' lcs' h hbuf
    rw [c40BacktrackWhile] at h
    split at h
    · cases hb : backtrackOne encodeChar ctx buffer lcs with
      | ok p =>
        obtain ⟨ctx1, buffer1, lcs1⟩ := p
        rw [hb] at h
        have h1 := backtrackOne_inv encodeChar ctx buffer lcs hb hbuf
        have h2 := ih ctx1 buffer1 lcs1 h h1.2.2.2
        exact ⟨h2.1.trans h1.1, h2.2.1.trans h1.2.1, h2.2.2.1.trans h1.2.2.1, h2.2.2.2⟩
      | error e =>
        rw [hb] at h
        cases h
    · simp only [Except.ok.injEq, Prod.mk.injEq] at h
      obtain ⟨rfl, rfl, rfl⟩ := h
      exact ⟨rfl, rfl, rfl, hbuf⟩

theorem c40TailAdjust_inv (encodeChar : Nat → Except Err (List Nat))
    (available : Int) (ctx : Ctx) (buffer : List Nat) (lcs : Nat)
    {ctx' : Ctx} {buffer' : List Nat}
    (h : c40TailAdjust encodeChar available ctx buffer lcs = .ok (ctx', buffer'))
    (hbuf : ∀ v ∈ buffer, v ≤ 39) :
    ctx'.codewords = ctx.codewords ∧ ctx'.message = ctx.message ∧
      ctx'.skipAtEnd = ctx.skipAtEnd ∧ (∀ v ∈ buffer', v ≤ 39) := by
  unfold c40TailAdjust at h
  dsimp only at h
  cases h1v : (if buffer.length % 3 = 2 ∧ (available < 2 ∨ 2 < available)
      then backtrackOne encodeChar ctx buffer lcs
      else Except.ok (ctx, buffer, lcs)) with
  | error e =>
    rw [h1v] at h
    cases h
  | ok p =>
    obtain ⟨ctx1, buffer1, lcs1⟩ := p
    rw [h1v] at h
    dsimp only at h
    have h1 : ctx1.codewords = ctx.codewords ∧ ctx1.message = ctx.message ∧
        ctx1.skipAtEnd = ctx.skipAtEnd ∧ (∀ v ∈ buffer1, v ≤ 39) := by
      split at h1v
      · exact backtrackOne_inv encodeChar ctx buffer lcs h1v hbuf
      · simp only [Except.ok.injEq, Prod.mk.injEq] at h1v
        obtain ⟨rfl, rfl, rfl⟩ := h1v
        exact ⟨rfl, rfl, rfl, hbuf⟩
    cases hw : c40BacktrackWhile encodeChar available (buffer1.length + 1) ctx1 buffer1 lcs1 with
    | ok q =>
      obtain ⟨ctx2, buffer2, lcs2⟩ := q
      rw [hw] at h
      simp only [Except.ok.injEq, Prod.mk.injEq] at h
      obtain ⟨rfl, rfl⟩ := h
      have h2 := c40BacktrackWhile_inv encodeChar available _ ctx1 buffer1 lcs1 hw h1.2.2.2
      exact ⟨h2.1.trans h1.1, h2.2.1.trans h1.2.1, h2.2.2.1.trans h1.2.2.1, h2.2.2.2⟩
    | error e =>
      rw [hw] at h
      cases h

theorem c40Loop_inv (cap : Nat → Nat) (encodeChar : Nat → Except Err (List Nat))
    (mode : Mode)
    (hEnc : ∀ c, c ≤ 255 → ∀ vs, encodeChar c = .ok vs → ∀ v ∈ vs, v ≤ 39) :
    ∀ (fuel : Nat) (ctx : Ctx) (buffer : List Nat) {ctx' : Ctx}
      {buffer' : List Nat},
      InRange ctx.message → (∀ v ∈ buffer, v ≤ 39) →
      c40Loop cap encodeChar mode fuel ctx buffer = .ok (ctx', buffer') →
      ctx'.codewords = ctx.codewords ∧ ctx'.message = ctx.message ∧
        ctx'.skipAtEnd = ctx.skipAtEnd ∧ (∀ v ∈ buffer', v ≤ 39) := by
  intro fuel
  induction fuel with
  | zero =>
    intro ctx buffer ctx' buffer' hm hb h
    unfold c40Loop at h
    simp only [Except.ok.injEq, Prod.mk.injEq] at h
    obtain ⟨rfl, rfl⟩ := h
    exact ⟨rfl, rfl, rfl, hb⟩
  | succ fuel ih =>
    intro ctx buffer ctx' buffer' hm hb h
    rw [c40Loop] at h
    split at h
    · dsimp only at h
      cases he : encodeChar ctx.cur with
      | error e =>
        rw [he] at h
        cases h
      | ok vs =>
        rw [he] at h
        dsimp only at h
        have hvs : ∀ v ∈ vs, v ≤ 39 := hEnc _ (getD_le _ hm _) _ he
        have hbvs : ∀ v ∈ buffer ++ vs, v ≤ 39 := by
          intro v hv
          rcases List.mem_append.1 hv with hv | hv
          · exact hb v hv
          · exact hvs v hv
        split at h
        · have ht := c40TailAdjust_inv encodeChar _ _ _ _ h hbvs
          exact ht
        · split at h
          · split at h
            · simp only [Except.ok.injEq, Prod.mk.injEq] at h
              obtain ⟨rfl, rfl⟩ := h
              exact ⟨rfl, rfl, rfl, hbvs⟩
            · have hr := ih (ctx.setPos (ctx.pos + 1)) _ hm hbvs h
              exact hr
          · have hr := ih (ctx.setPos (ctx.pos + 1)) _ hm hbvs h
            exact hr
    · simp only [Except.ok.injEq, Prod.mk.injEq] at h
      obtain ⟨rfl, rfl⟩ := h
      exact ⟨rfl, rfl, rfl, hb⟩

theorem CtxInv.flush {ctx : Ctx} (h : CtxInv ctx) {buf : List Nat}
    (hbuf : ∀ v ∈ buf, v ≤ 39) : CtxInv (c40FlushLoop ctx buf) := by
  rw [c40FlushLoop_eq]
  exact ⟨h.1, h.2.append (triplesCW_le _ hbuf)⟩

theorem CtxInv.addIf {ctx : Ctx} (h : CtxInv ctx) {b : Prop} [Decidable b]
    {v : Nat} (hv : v ≤ 255) : CtxInv (if b then ctx.add v else ctx) := by
  split
  · exact h.add hv
  · exact h

theorem c40HandleEOD_inv (cap : Nat → Nat) (ctx : Ctx) (buffer : List Nat)
    {ctx' : Ctx} (hctx : CtxInv ctx) (hbuf : ∀ v ∈ buffer, v ≤ 39)
    (h : c40HandleEOD cap ctx buffer = .ok ctx') : CtxInv ctx' := by
  have hbuf0 : ∀ v ∈ buffer ++ [0], v ≤ 39 := by
    intro v hv
    rcases List.mem_append.1 hv with hv | hv
    · exact hbuf v hv
    · simp at hv
      omega
  unfold c40HandleEOD at h
  dsimp only at h
  split at h
  · simp only [Except.ok.injEq] at h
    subst h
    exact ((hctx.flush hbuf0).addIf (by omega)).setNE _
  · split at h
    · simp only [Except.ok.injEq] at h
      subst h
      exact (((hctx.flush hbuf).addIf (by omega)).setPos _).setNE _
    · split at h
      · simp only [Except.ok.injEq] at h
        subst h
        exact ((hctx.flush hbuf).addIf (by omega)).setNE _
      · cases h

theorem encodeC40With_inv (cap : Nat → Nat)
    (encodeChar : Nat → Except Err (List Nat)) (mode : Mode)
    (hEnc : ∀ c, c ≤ 255 → ∀ vs, encodeChar c = .ok vs → ∀ v ∈ vs, v ≤ 39)
    (ctx : Ctx) {ctx' : Ctx} (hctx : CtxInv ctx)
    (h : encodeC40With cap encodeChar mode ctx = .ok ctx') : CtxInv ctx' := by
  unfold encodeC40With at h
  cases hl : c40Loop cap encodeChar mode (ctx.message.length + 1) ctx [] with
  | error e =>
    rw [hl] at h
    cases h
  | ok p =>
    obtain ⟨ctx1, buffer1⟩ := p
    rw [hl] at h
    have h1 := c40Loop_inv cap encodeChar mode hEnc _ ctx [] hctx.1 (by simp) hl
    have hctx1 : CtxInv ctx1 := ⟨h1.2.1 ▸ hctx.1, h1.1 ▸ hctx.2⟩
    exact c40HandleEOD_inv cap ctx1 buffer1 hctx1 h1.2.2.2 h

theorem writeNextTriplet_inv {ctx : Ctx} (h : CtxInv ctx) {buffer : List Nat}
    (hbuf : ∀ v ∈ buffer, v ≤ 39) :
    CtxInv (writeNextTriplet ctx buffer).1 ∧
      (∀ v ∈ (writeNextTriplet ctx buffer).2, v ≤ 39) := by
  unfold writeNextTriplet
  have h0 := getD_le_of buffer 39 hbuf 0
  have h1 := getD_le_of buffer 39 hbuf 1
  have h2 := getD_le_of buffer 39 hbuf 2
  have hp := packC40_le _ _ _ h0 h1 h2
  exact ⟨(h.add hp.1).add hp.2, fun v hv => hbuf v (List.mem_of_mem_drop hv)⟩

theorem x12Loop_inv (cap : Nat → Nat) :
    ∀ (fuel : Nat) (ctx : Ctx) (buffer : List Nat) {ctx' : Ctx}
      {buffer' : List Nat},
      CtxInv ctx → (∀ v ∈ buffer, v ≤ 39) →
      x12Loop cap fuel ctx buffer = .ok (ctx', buffer') →
      CtxInv ctx' := by
  intro fuel
  induction fuel with
  | zero =>
    intro ctx buffer ctx' buffer' hc hb h
    unfold x12Loop at h
    simp only [Except.ok.injEq, Prod.mk.injEq] at h
    obtain ⟨rfl, rfl⟩ := h
    exact hc
  | succ fuel ih =>
    intro ctx buffer ctx' buffer' hc hb h
    rw [x12Loop] at h
    split at h
    · dsimp only at h
      cases he : x12EncodeChar ctx.cur with
      | error e =>
        rw [he] at h
        cases h
      | ok v =>
        rw [he] at h
        dsimp only at h
        have hv : v ≤ 39 := x12EncodeChar_le _ hc.cur_le he
        have hbv : ∀ w ∈ buffer ++ [v], w ≤ 39 := by
          intro w hw
          rcases List.mem_append.1 hw with hw | hw
          · exact hb w hw
          · simp at hw
            omega
        have hcp : CtxInv (ctx.setPos (ctx.pos + 1)) := hc
        split at h
        · have hwt := writeNextTriplet_inv hcp hbv
          split at h
          · simp only [Except.ok.injEq, Prod.mk.injEq] at h
            obtain ⟨rfl, rfl⟩ := h
            exact hwt.1
          · exact ih _ _ hwt.1 hwt.2 h
        · exact ih _ _ hcp hbv h
    · simp only [Except.ok.injEq, Prod.mk.injEq] at h
      obtain ⟨rfl, rfl⟩ := h
      exact hc

theorem encodeX12_inv (cap : Nat → Nat) (ctx : Ctx) {ctx' : Ctx}
    (hctx : CtxInv ctx) (h : EncodeX12 cap ctx = .ok ctx') : CtxInv ctx' := by
  unfold EncodeX12 at h
  cases hl : x12Loop cap (ctx.message.length + 1) ctx [] with
  | error e =>
    rw [hl] at h
    cases h
  | ok p =>
    obtain ⟨ctx1, buffer1⟩ := p
    rw [hl] at h
    simp only [Except.ok.injEq] at h
    subst h
    exact x12Loop_inv cap _ ctx [] hctx (by simp) hl

theorem edifactToCodewords_le (sb : List Nat) {vs : List Nat}
    (h : edifactToCodewords sb = .ok vs) : InRange vs := by
  unfold edifactToCodewords at h
  dsimp only at h
  split at h
  · cases h
  · simp only [Except.ok.injEq] at h
    subst h
    intro x hx
    simp only [List.mem_append, List.mem_singleton] at hx
    have m1 : ∀ (a b : Nat), a % 256 ≤ 255 := by
      intro a b
      have := Nat.mod_lt a (show 0 < 256 by omega)
      omega
    rcases hx with (hx | hx) | hx
    · subst hx
      exact m1 _ 0
    · split at hx
      · simp at hx
        subst hx
        exact m1 _ 0
      · simp at hx
    · split at hx
      · simp at hx
        subst hx
        exact m1 _ 0
      · simp at hx

theorem foldl_add_inv {cws : List Nat} (hcws : InRange cws) :
    ∀ {ctx : Ctx}, CtxInv ctx → CtxInv (cws.foldl Ctx.add ctx) := by
  induction cws with
  | nil => intro ctx h; exact h
  | cons c rest ih =>
    intro ctx h
    have hc : c ≤ 255 := hcws c (by simp)
    exact ih (fun v hv => hcws v (by simp [hv])) (h.add hc)

theorem edifactHandleEOD_inv (cap : Nat → Nat) (ctx : Ctx) (buffer : List Nat)
    {ctx' : Ctx} (hctx : CtxInv ctx)
    (h : edifactHandleEOD cap ctx buffer = .ok ctx') : CtxInv ctx' := by
  unfold edifactHandleEOD at h
  split at h
  next x e heq =>
    dsimp only at h
    split at h
    · simp only [Except.ok.injEq] at h
      subst h
      exact hctx
    · split at h
      · simp only [Except.ok.injEq] at h
        subst h
        exact hctx
      · split at h
        · cases h
        · cases h
  next x vs heq =>
    dsimp only at h
    split at h
    · simp only [Except.ok.injEq] at h
      subst h
      exact hctx
    · split at h
      · simp only [Except.ok.injEq] at h
        subst h
        exact hctx
      · split at h
        · cases h
        · split at h
          · rw [if_neg (by simp)] at h
            simp only [Except.ok.injEq] at h
            subst h
            exact (foldl_add_inv (edifactToCodewords_le buffer heq) hctx).setNE _
          · split at h
            · simp only [Except.ok.injEq] at h
              subst h
              exact hctx
            · simp only [Except.ok.injEq] at h
              subst h
              exact (foldl_add_inv (edifactToCodewords_le buffer heq) hctx).setNE _

theorem edifactLoop_inv (cap : Nat → Nat) :
    ∀ (fuel : Nat) (ctx : Ctx) (buffer : List Nat) {ctx' : Ctx}
      {buffer' : List Nat},
      CtxInv ctx →
      edifactLoop cap fuel ctx buffer = .ok (ctx', buffer') →
      CtxInv ctx' := by
  intro fuel
  induction fuel with
  | zero =>
    intro ctx buffer ctx' buffer' hc h
    unfold edifactLoop at h
    simp only [Except.ok.injEq, Prod.mk.injEq] at h
    obtain ⟨rfl, rfl⟩ := h
    exact hc
  | succ fuel ih =>
    intro ctx buffer ctx' buffer' hc h
    rw [edifactLoop] at h
    split at h
    · dsimp only at h
      cases he : edifactEncodeChar ctx.cur with
      | error e =>
        rw [he] at h
        cases h
      | ok v =>
        rw [he] at h
        dsimp only at h
        have hcp : CtxInv (ctx.setPos (ctx.pos + 1)) := hc
        split at h
        · cases hcw : edifactToCodewords (buffer ++ [v]) with
          | error e =>
            rw [hcw] at h
            cases h
          | ok cws =>
            rw [hcw] at h
            dsimp only at h
            have hf : CtxInv (cws.foldl Ctx.add (ctx.setPos (ctx.pos + 1))) :=
              foldl_add_inv (edifactToCodewords_le _ hcw) hcp
            split at h
            · simp only [Except.ok.injEq, Prod.mk.injEq] at h
              obtain ⟨rfl, rfl⟩ := h
              exact hf
            · exact ih _ _ hf h
        · exact ih _ _ hcp h
    · simp only [Except.ok.injEq, Prod.mk.injEq] at h
      obtain ⟨rfl, rfl⟩ := h
      exact hc

theorem encodeEdifact_inv (cap : Nat → Nat) (ctx : Ctx) {ctx' : Ctx}
    (hctx : CtxInv ctx) (h : EncodeEdifact cap ctx = .ok ctx') : CtxInv ctx' := by
  unfold EncodeEdifact at h
  cases hl : edifactLoop cap (ctx.message.length + 1) ctx [] with
  | error e =>
    rw [hl] at h
    cases h
  | ok p =>
    obtain ⟨ctx1, buffer1⟩ := p
    rw [hl] at h
    exact edifactHandleEOD_inv cap ctx1 _ (edifactLoop_inv cap _ ctx [] hctx hl) h

theorem base256Loop_inv :
    ∀ (fuel : Nat) (ctx : Ctx) (buffer : List Nat) {ctx' : Ctx}
      {buffer' : List Nat},
      CtxInv ctx → InRange buffer →
      base256Loop fuel ctx buffer = (ctx', buffer') →
      CtxInv ctx' ∧ InRange buffer' := by
  intro fuel
  induction fuel with
  | zero =>
    intro ctx buffer ctx' buffer' hc hb h
    unfold base256Loop at h
    simp only [Prod.mk.injEq] at h
    obtain ⟨rfl, rfl⟩ := h
    exact ⟨hc, hb⟩
  | succ fuel ih =>
    intro ctx buffer ctx' buffer' hc hb h
    rw [base256Loop] at h
    split at h
    · dsimp only at h
      have hb' : InRange (buffer ++ [ctx.cur]) :=
        hb.append (by intro x hx; simp at hx; subst hx; exact hc.cur_le)
      have hcp : CtxInv (ctx.setPos (ctx.pos + 1)) := hc
      split at h
      · simp only [Prod.mk.injEq] at h
        obtain ⟨rfl, rfl⟩ := h
        exact ⟨hcp, hb'⟩
      · exact ih _ _ hcp hb' h
    · simp only [Prod.mk.injEq] at h
      obtain ⟨rfl, rfl⟩ := h
      exact ⟨hc, hb⟩

theorem emit255_inv {buffer : List Nat} (hb : InRange buffer) :
    ∀ {ctx : Ctx}, CtxInv ctx → CtxInv (emit255 ctx buffer) := by
  unfold emit255
  induction buffer with
  | nil => intro ctx h; exact h
  | cons c rest ih =>
    intro ctx h
    have hc : c ≤ 255 := hb c (by simp)
    exact ih (fun v hv => hb v (by simp [hv])) (h.add (r255_le _ _ hc))

theorem set_inRange {l : List Nat} (hl : InRange l) {v : Nat} (hv : v ≤ 255)
    (i : Nat) : InRange (l.set i v) := by
  intro x hx
  rcases List.mem_or_eq_of_mem_set hx with hx | hx
  · exact hl x hx
  · omega

theorem base256Finish_inv (cap : Nat → Nat) (ctx : Ctx) (buffer : List Nat)
    {ctx' : Ctx} (hctx : CtxInv ctx) (hb : InRange buffer)
    (h : base256Finish cap ctx buffer = .ok ctx') : CtxInv ctx' := by
  unfold base256Finish at h
  dsimp only at h
  split at h
  · split at h
    · simp only [Except.ok.injEq] at h
      subst h
      exact emit255_inv (set_inRange hb (by omega) 0) hctx
    · split at h
      · next hrange =>
        simp only [Except.ok.injEq] at h
        subst h
        refine emit255_inv ?_ hctx
        have hset : InRange (buffer.set 0 ((buffer.length - 1) / 250 + 249)) :=
          set_inRange hb (by omega) 0
        refine (InRange.append (InRange.append ?_ ?_) ?_)
        · intro x hx
          exact hset x (List.mem_of_mem_take hx)
        · intro x hx
          simp at hx
          have := Nat.mod_lt (buffer.length - 1) (show 0 < 250 by omega)
          omega
        · intro x hx
          exact hset x (List.mem_of_mem_drop hx)
      · cases h
  · simp only [Except.ok.injEq] at h
    subst h
    exact emit255_inv hb hctx

theorem encodeBase256_inv (cap : Nat → Nat) (ctx : Ctx) {ctx' : Ctx}
    (hctx : CtxInv ctx) (h : EncodeBase256 cap ctx = .ok ctx') : CtxInv ctx' := by
  unfold EncodeBase256 at h
  cases hl : base256Loop (ctx.message.length + 1) ctx [0] with
  | mk ctx1 buffer1 =>
    rw [hl] at h
    have h1 := base256Loop_inv _ ctx [0] hctx (by intro x hx; simp at hx; omega) hl
    exact base256Finish_inv cap ctx1 buffer1 h1.1 h1.2 h

theorem runMode_inv (cap : Nat → Nat) (mode : Mode) (ctx : Ctx) {ctx' : Ctx}
    (hctx : CtxInv ctx) (h : runMode cap mode ctx = .ok ctx') : CtxInv ctx' := by
  cases mode with
  | ascii =>
    simp only [runMode, Except.ok.injEq] at h
    subst h
    exact encodeASCII_inv ctx hctx
  | c40 =>
    exact encodeC40With_inv cap c40EncodeChar .c40
      (fun c hc vs hv => c40EncodeChar_le c hc hv) ctx hctx h
  | text =>
    exact encodeC40With_inv cap textEncodeChar .c40
      (fun c hc vs hv => textEncodeChar_le c hc hv) ctx hctx h
  | x12 => exact encodeX12_inv cap ctx hctx h
  | edifact => exact encodeEdifact_inv cap ctx hctx h
  | base256 => exact encodeBase256_inv cap ctx hctx h

theorem encodeLoop_inv (cap : Nat → Nat) :
    ∀ (fuel : Nat) (mode : Mode) (ctx : Ctx) {mode' : Mode} {ctx' : Ctx},
      CtxInv ctx → encodeLoop cap fuel mode ctx = .ok (mode', ctx') →
      CtxInv ctx' := by
  intro fuel
  induction fuel with
  | zero =>
    intro mode ctx mode' ctx' hc h
    cases h
  | succ fuel ih =>
    intro mode ctx mode' ctx' hc h
    rw [encodeLoop] at h
    split at h
    · cases hr : runMode cap mode ctx with
      | error e =>
        rw [hr] at h
        cases h
      | ok ctx1 =>
        rw [hr] at h
        have h1 := runMode_inv cap mode ctx hc hr
        dsimp only at h
        split at h
        · next m hm =>
          exact ih _ { ctx1 with newEncoding := none } ⟨h1.1, h1.2⟩ h
        · exact ih _ _ h1 h
    · simp only [Except.ok.injEq, Prod.mk.injEq] at h
      obtain ⟨rfl, rfl⟩ := h
      exact hc

theorem fill253_inRange (capacity len : Nat) : InRange (fill253 capacity len) := by
  intro x hx
  unfold fill253 at hx
  simp only [List.mem_map] at hx
  obtain ⟨i, _, rfl⟩ := hx
  exact r253_le _ _ (by omega)

theorem singleton_inRange (v : Nat) (hv : v ≤ 255) : InRange [v] := by
  intro x hx
  simp only [List.mem_singleton] at hx
  omega

theorem finalize_inv (cap : Nat → Nat) (mode : Mode) (ctx : Ctx)
    (hctx : InRange ctx.codewords) : InRange (finalize cap mode ctx) := by
  rw [finalize_eq]
  dsimp only
  refine InRange.append ?_ (fill253_inRange _ _)
  split
  · split
    · exact (hctx.append (singleton_inRange 254 (by omega))).append
        (singleton_inRange 129 (by omega))
    · exact hctx.append (singleton_inRange 254 (by omega))
  · split
    · exact hctx.append (singleton_inRange 129 (by omega))
    · exact hctx

theorem applyHeaderShortcut_inv (ctx : Ctx) (h : CtxInv ctx) :
    CtxInv (applyHeaderShortcut ctx) := by
  unfold applyHeaderShortcut
  split
  · exact ⟨h.1, h.2.append (by intro x hx; simp at hx; omega)⟩
  · split
    · exact ⟨h.1, h.2.append (by intro x hx; simp at hx; omega)⟩
    · exact h

/-! ## Claim C9 -/

/-- Claim C9: every successful encode yields codewords in 0..255, the
randomizers preserve the octet range, and so does every emission along
the way (the invariant threaded through all six compactors and the
driver). -/
theorem c9_output_range :
    (∀ ch pos, ch ≤ 255 → Randomize253State ch pos ≤ 255) ∧
    (∀ ch pos, ch ≤ 255 → Randomize255State ch pos ≤ 255) ∧
    (∀ (cap : Nat → Nat) (msg out : List Nat), InRange msg →
      dmEncode cap msg = .ok out → InRange out) := by
  refine ⟨r253_le, r255_le, ?_⟩
  intro cap msg out hmsg h
  unfold dmEncode at h
  cases hl : encodeLoop cap (fuelFor msg) .ascii
      (applyHeaderShortcut ⟨msg, 0, [], none, 0⟩) with
  | error e =>
    obtain ⟨e1, e2⟩ := e
    rw [hl] at h
    cases h
  | ok p =>
    obtain ⟨mode, ctx⟩ := p
    rw [hl] at h
    simp only [Except.ok.injEq] at h
    subst h
    have h0 : CtxInv (⟨msg, 0, [], none, 0⟩ : Ctx) := ⟨hmsg, by intro x hx; cases hx⟩
    have h1 := encodeLoop_inv cap _ .ascii _ (applyHeaderShortcut_inv _ h0) hl
    exact finalize_inv cap mode ctx h1.2

/-- Claim C9 witness: the encode of `"A"` under the standard catalog is
`[66, 129, 70]`, all octets. -/
theorem c9_output_range_witness : InRange [66, 129, 70] :=
  c9_output_range.2.2 stdCap [65] [66, 129, 70] (by intro x hx; simp at hx; omega) rfl

end DMHLE
